import Mathlib

/-!
# Verification of the dolospy fingerprinting and similarity-index engine

Shallow embedding of the core of `src/dolospy/src/hashing.h`,
`src/dolospy/src/hashing.cpp` and `src/dolospy/src/index.cpp` into Lean.

Machine integers (`uint64_t`, `uint32_t`, `uint16_t`) are modelled as `Nat`
with explicit `% 2^64`, `% 2^32`, `% 2^16` reductions at the places where the
C++ code can overflow or truncate.  `std::set` (ordered, duplicate-free,
ascending iteration) is modelled as a strictly sorted `List Nat`;
`std::unordered_map` is modelled as an association list in insertion order
(a deterministic concretization of its unspecified iteration order).
The external tokenizer (`tokenize`, tree-sitter based) is an out-of-core
collaborator; the index operations are therefore embedded at the token level:
they receive the token-code list that `tokenize` would produce.
-/

namespace Dolos

/-- `static constexpr uint64_t mod = 33554393` from hashing.h. -/
def mod : Nat := 33554393

/-- `RollingHash::base = 4194301` from hashing.h. -/
def base : Nat := 4194301

/-- `std::numeric_limits<uint64_t>::max()`, the initial fill of the winnowing
buffer. -/
def U64MAX : Nat := 18446744073709551615

/-- Loop of `modPow` from hashing.h: `while (e > 1) { if (e & 1) y = b*y%m;
b = b*b%m; e >>= 1; } return b*y%m;`, written with structural fuel (the
first argument); `fuel ≥ e` always suffices because `e` at least halves on
every iteration.  All intermediate products are below `m^2 < 2^64` for the
modulus `mod` used by the program, so plain `Nat` arithmetic is exact. -/
def modPowGo (m : Nat) : Nat → Nat → Nat → Nat → Nat
  | 0, b, y, _ => b * y % m
  | fuel + 1, b, y, e =>
    if 1 < e then
      modPowGo m fuel (b * b % m) (if e % 2 = 1 then b * y % m else y) (e / 2)
    else
      b * y % m

/-- `modPow(base, exp, mod)` from hashing.h (same argument order). -/
def modPow (b e m : Nat) : Nat := modPowGo m e b 1 e

/-- The `RollingHash` struct from hashing.h: window length `k`, the
precomputed `max_base`, current hash, circular cursor `i` and the circular
buffer `memory` of the last `k` tokens. -/
structure RollingHash where
  k : Nat
  max_base : Nat
  hash : Nat
  i : Nat
  memory : List Nat
deriving DecidableEq, Repr

/-- The `RollingHash(k)` constructor: `max_base(mod - modPow(base, k, mod)),
memory(k, 0)`, `hash = 0`, `i = 0`. -/
def mkRollingHash (k : Nat) : RollingHash :=
  ⟨k, mod - modPow base k mod, 0, 0, List.replicate k 0⟩

/-- `RollingHash::operator()(tok)` from hashing.cpp:
`hash = (base * hash + tok + max_base * memory[i]) % mod; memory[i] = tok;
i = ++i % k; return hash;`.  The sum is reduced `% 2^64` first because the
C++ expression is evaluated in `uint64_t`. -/
def RollingHash.call (s : RollingHash) (tok : Nat) : RollingHash × Nat :=
  let h := (base * s.hash + tok + s.max_base * s.memory.getD s.i 0) % 2 ^ 64 % mod
  (⟨s.k, s.max_base, h, (s.i + 1) % s.k, s.memory.set s.i tok⟩, h)

/-- The hash stream produced by `RollingHashIterator`: one
`RollingHash::operator()` application per token, threading the state. -/
def rollHashes (s : RollingHash) : List Nat → List Nat
  | [] => []
  | t :: ts =>
    let p := s.call t
    p.2 :: rollHashes p.1 ts

/-- The window-hash sequence a document's token list is reduced to before
winnowing (`RollingHashIterator(k, ...)` over the whole token vector). -/
def windowHashes (k : Nat) (tokens : List Nat) : List Nat :=
  rollHashes (mkRollingHash k) tokens

/-- Index (0-based) of the first minimal element of a list, as computed by
`std::ranges::min_element` (ties resolved to the leftmost position). -/
def minIdxGo : List Nat → Nat → Nat → Nat → Nat
  | [], _, bi, _ => bi
  | x :: xs, ix, bi, bv =>
    if x < bv then minIdxGo xs (ix + 1) ix x else minIdxGo xs (ix + 1) bi bv

/-- First index attaining the minimum of a list (`min_element`); `0` on `[]`. -/
def minIdx : List Nat → Nat
  | [] => 0
  | x :: xs => minIdxGo xs 1 0 x

/-- Winnowing state: circular buffer `h` of size `w`, write cursor `r` and
current minimum index `min`, exactly the loop state of `winnowFilter` in
hashing.h. -/
structure WinnowState where
  h : List Nat
  r : Nat
  min : Nat
deriving DecidableEq, Repr

/-- The loop of `winnowFilter` from hashing.h, emitting fingerprints in
order.  Note the comparison `h[min] < h[r]` is transcribed literally from the
source (line 87): the code emits when the incoming value is strictly larger
than the current minimum. -/
def winnowGo (w : Nat) : WinnowState → List Nat → List Nat
  | _, [] => []
  | st, v :: vs =>
    let r' := (st.r + 1) % w
    let h' := st.h.set r' v
    if st.min = r' then
      let mn := minIdx h'
      h'.getD mn 0 :: winnowGo w ⟨h', r', mn⟩ vs
    else if h'.getD st.min 0 < h'.getD r' 0 then
      h'.getD r' 0 :: winnowGo w ⟨h', r', r'⟩ vs
    else
      winnowGo w ⟨h', r', st.min⟩ vs

/-- `winnowFilter(w, begin, end)` from hashing.h: buffer initialized to
`uint64_t` max, `r = 0`, `min = 0`.  (The `sizeEstimation` argument only
pre-sizes the output vector and is dropped.) -/
def winnowFilter (w : Nat) (xs : List Nat) : List Nat :=
  winnowGo w ⟨List.replicate w U64MAX, 0, 0⟩ xs

/-- Modelled from the spec: the winnowing loop as §4.2 of the spec states it.
It differs from `winnowGo` (the code) in exactly one place: the incremental
comparison is `h[min] > h[r]` (emit when the incoming value is strictly
smaller than the current minimum), as in the Schleimer–Wilkerson–Aiken paper
the source comment cites. -/
def winnowSpecGo (w : Nat) : WinnowState → List Nat → List Nat
  | _, [] => []
  | st, v :: vs =>
    let r' := (st.r + 1) % w
    let h' := st.h.set r' v
    if st.min = r' then
      let mn := minIdx h'
      h'.getD mn 0 :: winnowSpecGo w ⟨h', r', mn⟩ vs
    else if h'.getD r' 0 < h'.getD st.min 0 then
      h'.getD r' 0 :: winnowSpecGo w ⟨h', r', r'⟩ vs
    else
      winnowSpecGo w ⟨h', r', st.min⟩ vs

/-- Modelled from the spec: `winnowFilter` as specified (see `winnowSpecGo`). -/
def winnowFilterSpec (w : Nat) (xs : List Nat) : List Nat :=
  winnowSpecGo w ⟨List.replicate w U64MAX, 0, 0⟩ xs

/-- The next time ≥ `t` at which the winnowing loop writes into buffer slot
`s`: the unique `u ∈ [t, t+w)` with `(u+1) % w = s` (step `u` writes slot
`(u+1) % w`).  Used to characterize the buffer contents of `winnowGo`. -/
def nextWrite (w t s : Nat) : Nat :=
  if (t + 1) % w ≤ s then t + (s - (t + 1) % w) else t + (s + w - (t + 1) % w)

/-- Content of buffer slot `s` after the winnowing loop has processed the
first `t` elements of `xs`: the input written at time `nextWrite w t s - w`
(the last write into that slot), or the `uint64_t` max padding if the slot
has not been written yet. -/
def slotVal (xs : List Nat) (w t s : Nat) : Nat :=
  if w ≤ nextWrite w t s then xs.getD (nextWrite w t s - w) 0 else U64MAX

/-- The `winnowGo` state after `t` processed inputs whose current minimum
index is `μ`: the buffer is fully determined by `t` (see `slotVal`), the
cursor is `t % w`. -/
def stateAt (xs : List Nat) (w t μ : Nat) : WinnowState :=
  ⟨(List.range w).map (slotVal xs w t), t % w, μ⟩

/-- Trial division over the range `[d, d+cnt)` by halving (so the evaluation
recursion is only `fuel` deep): `true` means no number in the range divides
`n`, provided `cnt ≤ 2^fuel`.  Used to certify that the modulus constant is
prime by a computation the kernel can carry out directly. -/
def trialDiv (n : Nat) : Nat → Nat → Nat → Bool
  | 0, d, _ => !(n % d == 0)
  | fuel + 1, d, cnt =>
    if cnt ≤ 1 then !(n % d == 0)
    else trialDiv n fuel d (cnt / 2) && trialDiv n fuel (d + cnt / 2) (cnt - cnt / 2)

/-- Well-formedness of a `RollingHash` state for window length `k`: the shape
facts every state reachable from the constructor satisfies. -/
structure RHWF (k : Nat) (s : RollingHash) : Prop where
  keq : s.k = k
  maxb : s.max_base = mod - base ^ k % mod
  memlen : s.memory.length = k
  ilt : s.i < k
  hashlt : s.hash < mod
  memlt : ∀ v ∈ s.memory, v < 2 ^ 16

/-- States of `RollingHash` reachable from the constructor by repeated calls
with token codes (`uint16_t`, hence `< 2^16`). -/
inductive RHReach (k : Nat) : RollingHash → Prop
  | init : RHReach k (mkRollingHash k)
  | step (s : RollingHash) (tok : Nat) :
      RHReach k s → tok < 2 ^ 16 → RHReach k (s.call tok).1

/-- `std::unordered_map` lookup (`find`): the value stored at key `k`, if
any.  The map is modelled as an association list in insertion order. -/
def alistFind {α β : Type} [DecidableEq α] (k : α) : List (α × β) → Option β
  | [] => none
  | p :: ps => if p.1 = k then some p.2 else alistFind k ps

/-- `map[k] = v` (insert-or-assign): overwrite the entry for `k` in place, or
append a new entry at the end. -/
def alistInsert {α β : Type} [DecidableEq α] (k : α) (v : β) :
    List (α × β) → List (α × β)
  | [] => [(k, v)]
  | p :: ps => if p.1 = k then (k, v) :: ps else p :: alistInsert k v ps

/-- Lookup with a default value. -/
def alistGetD {α β : Type} [DecidableEq α] (k : α) (m : List (α × β)) (d : β) : β :=
  (alistFind k m).getD d

/-- `std::unordered_map::operator[]`: returns the stored value, or
value-initializes (default) and inserts it; also returns the possibly
extended map. -/
def mapGetOrInsert {α β : Type} [DecidableEq α] (k : α) (d : β)
    (m : List (α × β)) : β × List (α × β) :=
  match alistFind k m with
  | some v => (v, m)
  | none => (d, m ++ [(k, d)])

/-- `std::set<uint*_t>::insert` on the ascending-order model of a set: keep
the list strictly sorted, ignore duplicates. -/
def sinsert (x : Nat) : List Nat → List Nat
  | [] => [x]
  | y :: ys => if x < y then x :: y :: ys else if x = y then y :: ys else y :: sinsert x ys

/-- Loop of `std::ranges::set_intersection` on two ascending ranges (the
sorted-merge intersection used by `Index::getPair`), with structural fuel;
every step consumes one element of one of the ranges, so fuel
`as.length + bs.length` always suffices. -/
def set_intersectionGo : Nat → List Nat → List Nat → List Nat
  | 0, _, _ => []
  | _ + 1, [], _ => []
  | _ + 1, _ :: _, [] => []
  | fuel + 1, a :: as, b :: bs =>
    if a < b then set_intersectionGo fuel as (b :: bs)
    else if b < a then set_intersectionGo fuel (a :: as) bs
    else a :: set_intersectionGo fuel as bs

/-- `std::ranges::set_intersection` on two ascending ranges. -/
def set_intersection (as bs : List Nat) : List Nat :=
  set_intersectionGo (as.length + bs.length) as bs

/-- The `Pair` struct from index.h. -/
structure Pair where
  left : String
  right : String
  covered : Nat
  leftTotal : Nat
  rightTotal : Nat
deriving DecidableEq, Repr

/-- The `Index` struct from index.h: inverted index (fingerprint → sorted
document-id set), forward sets (`groups`: id → sorted fingerprint set), the
name → id map and the id → name map, plus the two window parameters. -/
structure Index where
  index : List (Nat × List Nat)
  groups : List (Nat × List Nat)
  identifiers : List (String × Nat)
  names : List (Nat × String)
  k : Nat
  w : Nat
deriving DecidableEq, Repr

/-- The `Index(k, w)` constructor: all four maps empty. -/
def Index.mkEmpty (k w : Nat) : Index := ⟨[], [], [], [], k, w⟩

/-- The fingerprinting pipeline both `addToGroup` and `matchTokens` run on a
token list: rolling window hashes fed through the winnowing filter. -/
def fingerprints (k w : Nat) (tokens : List Nat) : List Nat :=
  winnowFilter w (windowHashes k tokens)

/-- The loop body of `Index::addToGroup`: for each winnowed hash,
`index[hash].insert(identifier); groups[identifier].insert(hash);`. -/
def insertHashes (identifier : Nat)
    (maps : List (Nat × List Nat) × List (Nat × List Nat)) :
    List Nat → List (Nat × List Nat) × List (Nat × List Nat)
  | [] => maps
  | h :: hs =>
    insertHashes identifier
      (alistInsert h (sinsert identifier (alistGetD h maps.1 [])) maps.1,
       alistInsert identifier (sinsert h (alistGetD identifier maps.2 [])) maps.2) hs

/-- `Index::addToGroup(groupName, sourceCode)` from index.cpp, embedded at
the token level (the external tree-sitter `tokenize` is the out-of-core
boundary producing the `uint16_t` token codes): resolve or register the
name (`uint16_t identifier = identifiers.size()` — the value truncates to 16
bits), fingerprint the tokens, and insert every fingerprint into both maps. -/
def addTokens (idx : Index) (groupName : String) (tokens : List Nat) : Index :=
  let reg :=
    match alistFind groupName idx.identifiers with
    | some id => (id, idx.identifiers, idx.names)
    | none =>
      let id := idx.identifiers.length % 2 ^ 16
      (id, idx.identifiers ++ [(groupName, id)], alistInsert id groupName idx.names)
  let maps := insertHashes reg.1 (idx.index, idx.groups) (fingerprints idx.k idx.w tokens)
  ⟨maps.1, maps.2, reg.2.1, reg.2.2, idx.k, idx.w⟩

/-- `Index::getPair(a, b)` from index.cpp, transcribed literally: both name
lookups and both forward-set lookups use `operator[]`, which
default-inserts on a miss (`identifiers[a]`, `groups[x]`); the returned
sizes are truncated to `uint32_t`.  Returns the `Pair` and the (possibly
mutated) index. -/
def getPair (idx : Index) (a b : String) : Pair × Index :=
  let xa := mapGetOrInsert a 0 idx.identifiers
  let yb := mapGetOrInsert b 0 xa.2
  let ga := mapGetOrInsert xa.1 [] idx.groups
  let gb := mapGetOrInsert yb.1 [] ga.2
  (⟨a, b, (set_intersection ga.1 gb.1).length % 2 ^ 32,
      ga.1.length % 2 ^ 32, gb.1.length % 2 ^ 32⟩,
   ⟨idx.index, gb.2, yb.2, idx.names, idx.k, idx.w⟩)

/-- `Index::matchTokens(tokens)` from index.cpp: one zero-initialized
counter per registered id, then for every winnowed hash (counted, with
repeats, into `total`) increment the counter of every id in the inverted
entry; finally one `Pair` per counter, resolving the name with
`names.at(identifier)` (which can fail, modelled by `Option`). -/
def matchTokens (idx : Index) (tokens : List Nat) : Option (List Pair) :=
  let shared0 := idx.identifiers.foldl (fun m p => alistInsert p.2 0 m)
    ([] : List (Nat × Nat))
  let hashes := fingerprints idx.k idx.w tokens
  let st := hashes.foldl (fun acc h =>
    ((match alistFind h idx.index with
      | none => acc.1
      | some ids =>
        ids.foldl (fun m id => alistInsert id ((alistGetD id m 0 + 1) % 2 ^ 32) m) acc.1),
     (acc.2 + 1) % 2 ^ 32)) (shared0, 0)
  st.1.mapM (fun p => (alistFind p.1 idx.names).map (fun nm =>
    ⟨"external", nm, p.2, st.2, (alistGetD p.1 idx.groups []).length % 2 ^ 32⟩))

/-- The parsed shape of the JSON snapshot `Index::serialize` emits: `k`,
`w`, the `identifiers` pair list and the `index` pair list.  The boost::json
encode/parse round-trip is modelled as the identity on this structure. -/
structure Snapshot where
  k : Nat
  w : Nat
  index : List (Nat × List Nat)
  identifiers : List (String × Nat)
deriving DecidableEq, Repr

/-- `Index::serialize` from index.cpp: emit `k`, `w`, every `identifiers`
entry and every inverted-map entry (document ids listed ascending). -/
def Index.serialize (idx : Index) : Snapshot :=
  ⟨idx.k, idx.w, idx.index, idx.identifiers⟩

/-- `Index::Index(const std::string&)` from index.cpp: rebuild
`identifiers`/`names` from the identifier pairs (ids cast to `uint16_t`),
then replay every (fingerprint, ids) pair into both maps, with the
fingerprint cast to `uint32_t` (`static_cast<uint32_t>(arr[0].as_int64())`)
and each id cast to `uint16_t`; `k` and `w` are stored into `uint16_t`
fields. -/
def deserialize (s : Snapshot) : Index :=
  let ids := s.identifiers.foldl
    (fun acc p => (alistInsert p.1 (p.2 % 2 ^ 16) acc.1,
                   alistInsert (p.2 % 2 ^ 16) p.1 acc.2))
    (([] : List (String × Nat)), ([] : List (Nat × String)))
  let maps := s.index.foldl
    (fun acc p => p.2.foldl (fun acc2 idv =>
        (alistInsert (p.1 % 2 ^ 32)
           (sinsert (idv % 2 ^ 16) (alistGetD (p.1 % 2 ^ 32) acc2.1 [])) acc2.1,
         alistInsert (idv % 2 ^ 16)
           (sinsert (p.1 % 2 ^ 32) (alistGetD (idv % 2 ^ 16) acc2.2 [])) acc2.2))
      acc)
    (([] : List (Nat × List Nat)), ([] : List (Nat × List Nat)))
  ⟨maps.1, maps.2, ids.1, ids.2, s.k % 2 ^ 16, s.w % 2 ^ 16⟩

/-- The id → name map obtained by replaying `names[id] = name` over the
identifier registrations in order. -/
def namesOf (l : List (String × Nat)) : List (Nat × String) :=
  l.foldl (fun acc p => alistInsert p.2 p.1 acc) []

/-- Index states reachable from a freshly constructed `Index(k, w)` by any
finite sequence of `addToGroup` calls. -/
inductive Reachable (k w : Nat) : Index → Prop
  | empty : Reachable k w (Index.mkEmpty k w)
  | add (idx : Index) (name : String) (tokens : List Nat) :
      Reachable k w idx → Reachable k w (addTokens idx name tokens)

/-- The invariants every reachable index state satisfies. -/
structure IndexWF (k w : Nat) (idx : Index) : Prop where
  keq : idx.k = k
  weq : idx.w = w
  ids_eq : idx.identifiers.map Prod.snd =
    (List.range idx.identifiers.length).map (· % 2 ^ 16)
  names_eq : idx.names = namesOf idx.identifiers
  names_nodup : (idx.identifiers.map Prod.fst).Nodup
  index_sorted : ∀ p ∈ idx.index, List.Sorted (· < ·) p.2
  index_keys_nodup : (idx.index.map Prod.fst).Nodup
  index_keys_lt : ∀ p ∈ idx.index, p.1 < 33554393
  index_nonempty : ∀ p ∈ idx.index, p.2 ≠ []
  index_ids : ∀ p ∈ idx.index, ∀ v ∈ p.2, v ∈ idx.identifiers.map Prod.snd
  groups_sorted : ∀ i, List.Sorted (· < ·) (alistGetD i idx.groups [])
  mirror : ∀ F d, d ∈ alistGetD F idx.index [] ↔ F ∈ alistGetD d idx.groups []

/- ------------------------------------------------------------------ -/
/- Theorems                                                            -/
/- ------------------------------------------------------------------ -/

theorem modPowGo_eq (m : Nat) :
    ∀ fuel e b y, 1 ≤ e → e ≤ fuel → modPowGo m fuel b y e = b ^ e * y % m := by
  intro fuel
  induction fuel with
  | zero => intro e b y h1 h2; omega
  | succ fuel ih =>
    intro e b y h1 h2
    by_cases he : 1 < e
    · have h1' : 1 ≤ e / 2 := by omega
      have h2' : e / 2 ≤ fuel := by omega
      have hstep : modPowGo m (fuel + 1) b y e =
          modPowGo m fuel (b * b % m) (if e % 2 = 1 then b * y % m else y) (e / 2) := by
        simp [modPowGo, he]
      rw [hstep, ih (e / 2) _ _ h1' h2']
      have hsq : ∀ z, (b * b % m) ^ (e / 2) * z % m = (b * b) ^ (e / 2) * z % m := by
        intro z
        exact Nat.ModEq.mul ((Nat.mod_modEq (b * b) m).pow (e / 2)) Nat.ModEq.rfl
      by_cases ho : e % 2 = 1
      · have hee : 2 * (e / 2) + 1 = e := by omega
        rw [if_pos ho, hsq]
        have hmm : (b * b) ^ (e / 2) * (b * y % m) % m = (b * b) ^ (e / 2) * (b * y) % m :=
          Nat.ModEq.mul Nat.ModEq.rfl (Nat.mod_modEq (b * y) m)
        rw [hmm]
        have hnum : (b * b) ^ (e / 2) * (b * y) = b ^ e * y := by
          have h2e : b ^ e = b ^ (2 * (e / 2)) * b := by
            rw [← pow_succ, hee]
          rw [h2e, ← pow_two, ← pow_mul, mul_assoc]
        rw [hnum]
      · have hee : 2 * (e / 2) = e := by omega
        rw [if_neg ho, hsq, ← pow_two, ← pow_mul, hee]
    · have he1 : e = 1 := by omega
      subst he1
      simp [modPowGo, pow_one]

theorem modPow_eq (b e m : Nat) (he : 1 ≤ e) : modPow b e m = b ^ e % m := by
  rw [modPow, modPowGo_eq m e e b 1 he (le_refl e), mul_one]

theorem trialDiv_sound (n : Nat) : ∀ (fuel d cnt : Nat), 0 < d →
    cnt ≤ 2 ^ fuel → trialDiv n fuel d cnt = true →
    ∀ m, d ≤ m → m < d + cnt → ¬ m ∣ n := by
  intro fuel
  induction fuel with
  | zero =>
    intro d cnt hd hcnt ht m h1 h2 hdvd
    rw [trialDiv] at ht
    have hm : m = d := by
      have : (2 : Nat) ^ 0 = 1 := by norm_num
      omega
    subst hm
    rw [Nat.dvd_iff_mod_eq_zero.mp hdvd] at ht
    simp at ht
  | succ fuel ih =>
    intro d cnt hd hcnt ht m h1 h2 hdvd
    rw [trialDiv] at ht
    by_cases hc1 : cnt ≤ 1
    · rw [if_pos hc1] at ht
      have hm : m = d := by omega
      subst hm
      rw [Nat.dvd_iff_mod_eq_zero.mp hdvd] at ht
      simp at ht
    · rw [if_neg hc1, Bool.and_eq_true] at ht
      have hpow : 2 ^ (fuel + 1) = 2 ^ fuel * 2 := pow_succ 2 fuel
      by_cases hm : m < d + cnt / 2
      · exact ih d (cnt / 2) hd (by omega) ht.1 m h1 hm hdvd
      · exact ih (d + cnt / 2) (cnt - cnt / 2) (by omega) (by omega) ht.2 m
          (by omega) (by omega) hdvd

theorem mod_prime : Nat.Prime mod := by
  rw [show mod = 33554393 from rfl]
  refine Nat.prime_def_le_sqrt.mpr ⟨by omega, ?_⟩
  intro m hm2 hmsqrt
  have hmm : m * m ≤ 33554393 := Nat.le_sqrt.mp hmsqrt
  have hm5793 : m < 5793 := by
    by_contra hc
    push_neg at hc
    have := Nat.mul_le_mul hc hc
    omega
  exact trialDiv_sound 33554393 13 2 5791 (by omega) (by norm_num) (by decide)
    m hm2 (by omega)

theorem base_pow_mod_pos (k : Nat) : 0 < base ^ k % mod := by
  rcases Nat.eq_zero_or_pos (base ^ k % mod) with h | h
  · exfalso
    have hdvd : mod ∣ base ^ k := Nat.dvd_iff_mod_eq_zero.mpr h
    have hb : mod ∣ base := mod_prime.dvd_of_dvd_pow hdvd
    have := Nat.le_of_dvd (by decide) hb
    rw [show mod = 33554393 from rfl, show base = 4194301 from rfl] at this
    omega
  · exact h

theorem mkRollingHash_max_base (k : Nat) (hk : 1 ≤ k) :
    (mkRollingHash k).max_base = mod - base ^ k % mod := by
  rw [mkRollingHash, modPow_eq base k mod hk]

theorem max_base_mod_idem (k : Nat) :
    (mod - base ^ k % mod) % mod = mod - base ^ k % mod := by
  have h1 := base_pow_mod_pos k
  have h2 : base ^ k % mod < mod := Nat.mod_lt _ (by decide)
  exact Nat.mod_eq_of_lt (by omega)

theorem rhwf_init (k : Nat) (hk : 1 ≤ k) : RHWF k (mkRollingHash k) := by
  refine ⟨rfl, mkRollingHash_max_base k hk, List.length_replicate _ _,
    show 0 < k by omega, show (0 : Nat) < mod by decide, ?_⟩
  intro v hv
  rw [mkRollingHash] at hv
  simp only [List.mem_replicate] at hv
  omega

theorem rhwf_step (k : Nat) (s : RollingHash) (tok : Nat)
    (hs : RHWF k s) (htok : tok < 2 ^ 16) : RHWF k (s.call tok).1 := by
  obtain ⟨keq, maxb, memlen, ilt, hashlt, memlt⟩ := hs
  have hk : 0 < k := by omega
  refine ⟨keq, maxb, ?_, ?_, ?_, ?_⟩
  · simpa [RollingHash.call] using memlen
  · simp only [RollingHash.call]
    rw [keq]
    exact Nat.mod_lt _ hk
  · simp only [RollingHash.call]
    exact Nat.mod_lt _ (by decide)
  · intro v hv
    simp only [RollingHash.call] at hv
    rcases List.mem_or_eq_of_mem_set hv with h | h
    · exact memlt v h
    · omega

theorem rhreach_wf (k : Nat) (hk : 1 ≤ k) (s : RollingHash) (hs : RHReach k s) :
    RHWF k s := by
  induction hs with
  | init => exact rhwf_init k hk
  | step s tok _ htok ih => exact rhwf_step k s tok ih htok

/-- C5: for every `k ≥ 1` and every state reachable from the constructor,
`RollingHash::operator()(tok)` returns
`(b * h + tok + max_base * oldest) mod p` where `h` is the previous hash,
`oldest` is the buffer entry at the current cursor, `p = 33554393`,
`b = 4194301` and `max_base = (p - b^k mod p) mod p`; it stores `tok` at the
cursor position and advances the cursor modulo `k`. -/
theorem rollingHash_step_eq (k : Nat) (hk : 1 ≤ k) (s : RollingHash)
    (hs : RHReach k s) (tok : Nat) (htok : tok < 2 ^ 16) :
    (s.call tok).2 =
      (4194301 * s.hash + tok +
        ((33554393 - 4194301 ^ k % 33554393) % 33554393) * s.memory.getD s.i 0) % 33554393
    ∧ (s.call tok).1.memory = s.memory.set s.i tok
    ∧ (s.call tok).1.i = (s.i + 1) % k := by
  obtain ⟨keq, maxb, memlen, ilt, hashlt, memlt⟩ := rhreach_wf k hk s hs
  have hold : s.memory.getD s.i 0 < 2 ^ 16 := by
    have hlen : s.i < s.memory.length := by omega
    rw [List.getD_eq_getElem s.memory 0 hlen]
    exact memlt _ (List.getElem_mem hlen)
  have hbase : base * s.hash ≤ 4194301 * 33554392 := by
    rw [show base = 4194301 from rfl]
    exact Nat.mul_le_mul_left _ (by
      have := hashlt; rw [show mod = 33554393 from rfl] at this; omega)
  have hmb : s.max_base * s.memory.getD s.i 0 ≤ 33554393 * 65535 := by
    have h1 : s.max_base ≤ 33554393 := by
      rw [maxb, show mod = 33554393 from rfl]; omega
    exact Nat.mul_le_mul h1 (by omega)
  have hsum : base * s.hash + tok + s.max_base * s.memory.getD s.i 0 < 2 ^ 64 := by
    have h64 : (2 : Nat) ^ 64 = 18446744073709551616 := by norm_num
    omega
  refine ⟨?_, rfl, show (s.i + 1) % s.k = (s.i + 1) % k by rw [keq]⟩
  show (base * s.hash + tok + s.max_base * s.memory.getD s.i 0) % 2 ^ 64 % mod = _
  rw [Nat.mod_eq_of_lt hsum, show (4194301 : Nat) = base from rfl,
    show (33554393 : Nat) = mod from rfl, max_base_mod_idem, ← maxb]

/-- Witness for C5 at `k = 2`, the freshly constructed state and `tok = 7`. -/
theorem rollingHash_step_eq_witness :
    ((mkRollingHash 2).call 7).2 =
      (4194301 * (mkRollingHash 2).hash + 7 +
        ((33554393 - 4194301 ^ 2 % 33554393) % 33554393) *
          (mkRollingHash 2).memory.getD (mkRollingHash 2).i 0) % 33554393
    ∧ ((mkRollingHash 2).call 7).1.memory =
        (mkRollingHash 2).memory.set (mkRollingHash 2).i 7
    ∧ ((mkRollingHash 2).call 7).1.i = ((mkRollingHash 2).i + 1) % 2 :=
  rollingHash_step_eq 2 (by decide) _ RHReach.init 7 (by decide)

/-- C1: at the golden input `w = 3`, `[5,3,3,7,1,1,1,9]`, the code's
`winnowFilter` emits `[3,7,1,9]` — it emits exactly when the incoming hash is
strictly larger than the current minimum (`h[min] < h[r]` in hashing.h line
87) — while the algorithm stated by the spec (emit iff strictly smaller,
`h[min] > h[r]`) emits `[5,3,1,1]`.  The two disagree, so the code does not
realize the claimed emission rule. -/
theorem winnow_golden_flipped :
    winnowFilter 3 [5, 3, 3, 7, 1, 1, 1, 9] = [3, 7, 1, 9]
    ∧ winnowFilterSpec 3 [5, 3, 3, 7, 1, 1, 1, 9] = [5, 3, 1, 1]
    ∧ winnowFilter 3 [5, 3, 3, 7, 1, 1, 1, 9] ≠
        winnowFilterSpec 3 [5, 3, 3, 7, 1, 1, 1, 9] :=
  ⟨by decide, by decide, by decide⟩

theorem nextWrite_lb (w t s : Nat) : t ≤ nextWrite w t s := by
  rw [nextWrite]; split <;> omega

theorem nextWrite_ub (w t s : Nat) (hw : 0 < w) (hs : s < w) :
    nextWrite w t s < t + w := by
  have hc : (t + 1) % w < w := Nat.mod_lt _ hw
  rw [nextWrite]; split <;> omega

theorem nextWrite_mod (w t s : Nat) (hw : 0 < w) (hs : s < w) :
    (nextWrite w t s + 1) % w = s := by
  have hdm := Nat.div_add_mod (t + 1) w
  rw [nextWrite]; split
  · rw [show t + (s - (t + 1) % w) + 1 = w * ((t + 1) / w) + s by omega,
      Nat.mul_add_mod, Nat.mod_eq_of_lt hs]
  · have hc : (t + 1) % w < w := Nat.mod_lt _ hw
    rw [show t + (s + w - (t + 1) % w) + 1 = w * ((t + 1) / w) + (w + s) by omega,
      Nat.mul_add_mod, Nat.add_mod_left, Nat.mod_eq_of_lt hs]

theorem nextWrite_eq_self_iff (w t s : Nat) (hw : 0 < w) (_hs : s < w) :
    nextWrite w t s = t ↔ (t + 1) % w = s := by
  have hc : (t + 1) % w < w := Nat.mod_lt _ hw
  rw [nextWrite]; split <;> omega

theorem nextWrite_unique (w t s u : Nat) (hw : 0 < w) (hs : s < w)
    (h1 : t ≤ u) (h2 : u < t + w) (h3 : (u + 1) % w = s) :
    u = nextWrite w t s := by
  have hm1 := nextWrite_lb w t s
  have hm2 := nextWrite_ub w t s hw hs
  have hm3 := nextWrite_mod w t s hw hs
  set m := nextWrite w t s with hm
  have hmodeq : (u + 1) % w = (m + 1) % w := by rw [h3, hm3]
  rcases le_total u m with hle | hle
  · have hdvd : w ∣ m + 1 - (u + 1) :=
      (Nat.modEq_iff_dvd' (by omega)).mp hmodeq
    have := Nat.eq_zero_of_dvd_of_lt hdvd
    omega
  · have hdvd : w ∣ u + 1 - (m + 1) :=
      (Nat.modEq_iff_dvd' (by omega)).mp hmodeq.symm
    have := Nat.eq_zero_of_dvd_of_lt hdvd
    omega

theorem nextWrite_succ (w t s : Nat) (hw : 0 < w) (hs : s < w)
    (h : t < nextWrite w t s) : nextWrite w (t + 1) s = nextWrite w t s :=
  (nextWrite_unique w (t + 1) s (nextWrite w t s) hw hs h
    (by have := nextWrite_ub w t s hw hs; omega)
    (nextWrite_mod w t s hw hs)).symm

theorem nextWrite_written (w t : Nat) (hw : 0 < w) :
    nextWrite w (t + 1) ((t + 1) % w) = t + w :=
  (nextWrite_unique w (t + 1) ((t + 1) % w) (t + w) hw (Nat.mod_lt _ hw)
    (by omega) (by omega) (by rw [show t + w + 1 = t + 1 + w by omega, Nat.add_mod_right])).symm

theorem minIdxGo_spec (l : List Nat) :
    ∀ (tail : List Nat) (ix bi bv : Nat), ix + tail.length = l.length →
      (∀ j, j < tail.length → l.getD (ix + j) 0 = tail.getD j 0) →
      bi < l.length → l.getD bi 0 = bv →
      minIdxGo tail ix bi bv < l.length
      ∧ l.getD (minIdxGo tail ix bi bv) 0 ≤ bv
      ∧ ∀ x ∈ tail, l.getD (minIdxGo tail ix bi bv) 0 ≤ x := by
  intro tail
  induction tail with
  | nil =>
    intro ix bi bv _ _ hbi hbv
    exact ⟨hbi, le_of_eq hbv, by intro x hx; cases hx⟩
  | cons hd rest ih =>
    intro ix bi bv hlen hframe hbi hbv
    have hhd : l.getD ix 0 = hd := by
      have := hframe 0 (by simp)
      simpa using this
    simp only [minIdxGo]
    by_cases hlt : hd < bv
    · rw [if_pos hlt]
      have hres := ih (ix + 1) ix hd (by simp at hlen ⊢; omega)
        (by
          intro j hj
          have := hframe (j + 1) (by simp; omega)
          rw [show ix + (j + 1) = ix + 1 + j by omega] at this
          simpa using this)
        (by simp at hlen; omega) hhd
      refine ⟨hres.1, le_trans hres.2.1 (le_of_lt hlt), ?_⟩
      intro x hx
      rcases List.mem_cons.mp hx with h | h
      · rw [h]; exact hres.2.1
      · exact hres.2.2 x h
    · rw [if_neg hlt]
      have hres := ih (ix + 1) bi bv (by simp at hlen ⊢; omega)
        (by
          intro j hj
          have := hframe (j + 1) (by simp; omega)
          rw [show ix + (j + 1) = ix + 1 + j by omega] at this
          simpa using this)
        hbi hbv
      refine ⟨hres.1, hres.2.1, ?_⟩
      intro x hx
      rcases List.mem_cons.mp hx with h | h
      · rw [h]; exact le_trans hres.2.1 (by omega)
      · exact hres.2.2 x h

theorem minIdx_spec (l : List Nat) (hne : l ≠ []) :
    minIdx l < l.length ∧ ∀ x ∈ l, l.getD (minIdx l) 0 ≤ x := by
  rcases l with _ | ⟨hd, rest⟩
  · exact absurd rfl hne
  · have hres := minIdxGo_spec (hd :: rest) rest 1 0 hd (by simp; omega)
      (by
        intro j hj
        rw [show 1 + j = j + 1 by omega]
        simp [List.getD_cons_succ]) (by simp) (by simp)
    refine ⟨hres.1, ?_⟩
    intro x hx
    rcases List.mem_cons.mp hx with h | h
    · rw [h]; exact hres.2.1
    · exact hres.2.2 x h

theorem getD_map_range (f : Nat → Nat) (w s : Nat) (hs : s < w) :
    ((List.range w).map f).getD s 0 = f s := by
  rw [List.getD_eq_getElem _ _ (by simpa using hs)]
  simp

theorem buffer_init (xs : List Nat) (w : Nat) (hw : 0 < w) :
    (List.range w).map (slotVal xs w 0) = List.replicate w U64MAX := by
  apply List.ext_getElem (by simp)
  intro s h1 h2
  have hs : s < w := by simpa using h1
  simp only [List.getElem_map, List.getElem_range, List.getElem_replicate]
  rw [slotVal, if_neg]
  have := nextWrite_ub w 0 s hw hs
  omega

theorem buffer_step (xs : List Nat) (w t : Nat) (hw : 0 < w) :
    ((List.range w).map (slotVal xs w t)).set ((t + 1) % w) (xs.getD t 0) =
      (List.range w).map (slotVal xs w (t + 1)) := by
  apply List.ext_getElem (by simp)
  intro s h1 h2
  have hs : s < w := by simpa using h2
  rw [List.getElem_set]
  simp only [List.getElem_map, List.getElem_range]
  by_cases he : (t + 1) % w = s
  · rw [if_pos he, ← he, slotVal, nextWrite_written w t hw,
      if_pos (by omega), show t + w - w = t by omega]
  · rw [if_neg he]
    have hne : nextWrite w t s ≠ t := by
      rw [Ne, nextWrite_eq_self_iff w t s hw hs]; exact he
    have hlb := nextWrite_lb w t s
    rw [slotVal, slotVal, nextWrite_succ w t s hw hs (by omega)]

theorem winnowGo_step_rescan (xs : List Nat) (w t μ : Nat) (hw : 0 < w)
    (ht : t < xs.length) (he : μ = (t + 1) % w) :
    winnowGo w (stateAt xs w t μ) (xs.drop t) =
      ((List.range w).map (slotVal xs w (t + 1))).getD
          (minIdx ((List.range w).map (slotVal xs w (t + 1)))) 0 ::
        winnowGo w
          (stateAt xs w (t + 1) (minIdx ((List.range w).map (slotVal xs w (t + 1)))))
          (xs.drop (t + 1)) := by
  rw [List.drop_eq_getElem_cons ht, ← List.getD_eq_getElem xs 0 ht]
  simp only [stateAt, winnowGo, Nat.mod_add_mod]
  rw [buffer_step xs w t hw, if_pos he]

theorem winnowGo_step_emit (xs : List Nat) (w t μ : Nat) (hw : 0 < w)
    (ht : t < xs.length) (hne : μ ≠ (t + 1) % w)
    (hc : ((List.range w).map (slotVal xs w (t + 1))).getD μ 0 <
          ((List.range w).map (slotVal xs w (t + 1))).getD ((t + 1) % w) 0) :
    winnowGo w (stateAt xs w t μ) (xs.drop t) =
      ((List.range w).map (slotVal xs w (t + 1))).getD ((t + 1) % w) 0 ::
        winnowGo w (stateAt xs w (t + 1) ((t + 1) % w)) (xs.drop (t + 1)) := by
  rw [List.drop_eq_getElem_cons ht, ← List.getD_eq_getElem xs 0 ht]
  simp only [stateAt, winnowGo, Nat.mod_add_mod]
  rw [buffer_step xs w t hw, if_neg hne, if_pos hc]

theorem winnowGo_step_skip (xs : List Nat) (w t μ : Nat) (hw : 0 < w)
    (ht : t < xs.length) (hne : μ ≠ (t + 1) % w)
    (hc : ¬ ((List.range w).map (slotVal xs w (t + 1))).getD μ 0 <
          ((List.range w).map (slotVal xs w (t + 1))).getD ((t + 1) % w) 0) :
    winnowGo w (stateAt xs w t μ) (xs.drop t) =
      winnowGo w (stateAt xs w (t + 1) μ) (xs.drop (t + 1)) := by
  rw [List.drop_eq_getElem_cons ht, ← List.getD_eq_getElem xs 0 ht]
  simp only [stateAt, winnowGo, Nat.mod_add_mod]
  rw [buffer_step xs w t hw, if_neg hne, if_neg hc]

theorem winnowGo_reach (w : Nat) (xs : List Nat) (hw : 0 < w) :
    ∀ t, t ≤ xs.length →
      ∃ μ, μ < w ∧ ∃ pre, winnowFilter w xs =
        pre ++ winnowGo w (stateAt xs w t μ) (xs.drop t) := by
  intro t
  induction t with
  | zero =>
    intro _
    refine ⟨0, hw, [], ?_⟩
    rw [winnowFilter, stateAt, buffer_init xs w hw, Nat.zero_mod,
      List.drop_zero, List.nil_append]
  | succ t ih =>
    intro ht
    obtain ⟨μ, hμ, pre, hpre⟩ := ih (by omega)
    have htlt : t < xs.length := by omega
    by_cases he : μ = (t + 1) % w
    · refine ⟨minIdx ((List.range w).map (slotVal xs w (t + 1))), ?_, ?_⟩
      · have := minIdx_spec ((List.range w).map (slotVal xs w (t + 1))) (by
          intro hcon
          have := congrArg List.length hcon
          simp at this
          omega)
        simpa using this.1
      · exact ⟨pre ++ [((List.range w).map (slotVal xs w (t + 1))).getD
            (minIdx ((List.range w).map (slotVal xs w (t + 1)))) 0], by
          rw [hpre, winnowGo_step_rescan xs w t μ hw htlt he, List.append_assoc,
            List.singleton_append]⟩
    · by_cases hc : ((List.range w).map (slotVal xs w (t + 1))).getD μ 0 <
          ((List.range w).map (slotVal xs w (t + 1))).getD ((t + 1) % w) 0
      · exact ⟨(t + 1) % w, Nat.mod_lt _ hw,
          pre ++ [((List.range w).map (slotVal xs w (t + 1))).getD ((t + 1) % w) 0], by
          rw [hpre, winnowGo_step_emit xs w t μ hw htlt he hc, List.append_assoc,
            List.singleton_append]⟩
      · exact ⟨μ, hμ, pre, by
          rw [hpre, winnowGo_step_skip xs w t μ hw htlt he hc]⟩

theorem slotVal_written (xs : List Nat) (w t : Nat) (hw : 0 < w) :
    ((List.range w).map (slotVal xs w (t + 1))).getD ((t + 1) % w) 0 = xs.getD t 0 := by
  rw [getD_map_range _ w _ (Nat.mod_lt _ hw), slotVal, nextWrite_written w t hw,
    if_pos (by omega), show t + w - w = t by omega]

theorem chain_inner (w : Nat) (xs : List Nat) (i : Nat) (hw : 0 < w)
    (hb : ∀ v ∈ xs, v ≤ U64MAX) (hn : i + w ≤ xs.length) (m0 : Nat)
    (IH : ∀ t' μ', μ' < w → i ≤ t' → m0 < nextWrite w t' μ' →
      nextWrite w t' μ' ≤ i + w - 1 →
      ∃ j, i ≤ j ∧ j < i + w ∧ xs.getD j 0 ∈ winnowGo w (stateAt xs w t' μ') (xs.drop t')) :
    ∀ d t μ, μ < w → i ≤ t → nextWrite w t μ = m0 → m0 ≤ i + w - 1 → m0 - t = d →
      ∃ j, i ≤ j ∧ j < i + w ∧ xs.getD j 0 ∈ winnowGo w (stateAt xs w t μ) (xs.drop t) := by
  intro d
  induction d with
  | zero =>
    intro t μ hμ ht hm0 hub hd
    have hlb := nextWrite_lb w t μ
    have hm_eq : nextWrite w t μ = t := by omega
    have htlt : t < xs.length := by omega
    have he : μ = (t + 1) % w := ((nextWrite_eq_self_iff w t μ hw hμ).mp hm_eq).symm
    rw [winnowGo_step_rescan xs w t μ hw htlt he]
    have hBlen : ((List.range w).map (slotVal xs w (t + 1))).length = w := by simp
    have hBne : (List.range w).map (slotVal xs w (t + 1)) ≠ [] := by
      intro hcon
      have := congrArg List.length hcon
      simp at this
      omega
    obtain ⟨hmnlt, hmnmin⟩ := minIdx_spec _ hBne
    set mn := minIdx ((List.range w).map (slotVal xs w (t + 1))) with hmn
    have hmnw : mn < w := by omega
    have hval : ((List.range w).map (slotVal xs w (t + 1))).getD mn 0 =
        slotVal xs w (t + 1) mn := getD_map_range _ w mn hmnw
    have hm''lb := nextWrite_lb w (t + 1) mn
    have hm''ub := nextWrite_ub w (t + 1) mn hw hmnw
    by_cases hpad : w ≤ nextWrite w (t + 1) mn
    · have hval2 : ((List.range w).map (slotVal xs w (t + 1))).getD mn 0 =
          xs.getD (nextWrite w (t + 1) mn - w) 0 := by
        rw [hval, slotVal, if_pos hpad]
      by_cases hge : i ≤ nextWrite w (t + 1) mn - w
      · refine ⟨nextWrite w (t + 1) mn - w, hge, by omega, ?_⟩
        rw [← hval2]
        exact List.mem_cons_self _ _
      · obtain ⟨j, hj1, hj2, hj3⟩ := IH (t + 1) mn hmnw (by omega) (by omega) (by omega)
        exact ⟨j, hj1, hj2, List.mem_cons_of_mem _ hj3⟩
    · have hval2 : ((List.range w).map (slotVal xs w (t + 1))).getD mn 0 = U64MAX := by
        rw [hval, slotVal, if_neg hpad]
      have hmem : ((List.range w).map (slotVal xs w (t + 1))).getD ((t + 1) % w) 0 ∈
          (List.range w).map (slotVal xs w (t + 1)) := by
        rw [List.getD_eq_getElem _ _ (by rw [hBlen]; exact Nat.mod_lt _ hw)]
        exact List.getElem_mem _
      have hle := hmnmin _ hmem
      rw [slotVal_written xs w t hw] at hle
      have hxtmem : xs.getD t 0 ∈ xs := by
        rw [List.getD_eq_getElem _ _ htlt]
        exact List.getElem_mem _
      have hbig := hb _ hxtmem
      have heq : xs.getD t 0 = ((List.range w).map (slotVal xs w (t + 1))).getD mn 0 := by
        omega
      refine ⟨t, ht, by omega, ?_⟩
      rw [heq]
      exact List.mem_cons_self _ _
  | succ d ihd =>
    intro t μ hμ ht hm0 hub hd
    have hlb := nextWrite_lb w t μ
    have hgt : t < nextWrite w t μ := by omega
    have htlt : t < xs.length := by omega
    have hne : μ ≠ (t + 1) % w := by
      intro hcon
      have := (nextWrite_eq_self_iff w t μ hw hμ).mpr hcon.symm
      omega
    by_cases hc : ((List.range w).map (slotVal xs w (t + 1))).getD μ 0 <
        ((List.range w).map (slotVal xs w (t + 1))).getD ((t + 1) % w) 0
    · rw [winnowGo_step_emit xs w t μ hw htlt hne hc, slotVal_written xs w t hw]
      exact ⟨t, ht, by omega, List.mem_cons_self _ _⟩
    · rw [winnowGo_step_skip xs w t μ hw htlt hne hc]
      have hsucc := nextWrite_succ w t μ hw hμ hgt
      exact ihd (t + 1) μ hμ (by omega) (by omega) hub (by omega)

theorem chain (w : Nat) (xs : List Nat) (i : Nat) (hw : 0 < w)
    (hb : ∀ v ∈ xs, v ≤ U64MAX) (hn : i + w ≤ xs.length) :
    ∀ M t μ, μ < w → i ≤ t → nextWrite w t μ ≤ i + w - 1 →
      i + w - nextWrite w t μ ≤ M →
      ∃ j, i ≤ j ∧ j < i + w ∧ xs.getD j 0 ∈ winnowGo w (stateAt xs w t μ) (xs.drop t) := by
  intro M
  induction M with
  | zero =>
    intro t μ hμ ht hub hM
    omega
  | succ M ihM =>
    intro t μ hμ ht hub hM
    exact chain_inner w xs i hw hb hn (nextWrite w t μ)
      (fun t' μ' h1 h2 h3 h4 => ihM t' μ' h1 h2 h4 (by omega))
      (nextWrite w t μ - t) t μ hμ ht rfl hub rfl

/-- C2: for every window size `w ≥ 1` and every finite sequence of window
hashes (arbitrary `uint64_t` values), every contiguous run of `w` consecutive
input hashes contains at least one hash value that appears in the output
fingerprint sequence of `winnowFilter`. -/
theorem winnow_coverage (w : Nat) (hw : 1 ≤ w) (xs : List Nat)
    (hb : ∀ v ∈ xs, v ≤ U64MAX) (i : Nat) (hi : i + w ≤ xs.length) :
    ∃ j, i ≤ j ∧ j < i + w ∧ xs.getD j 0 ∈ winnowFilter w xs := by
  obtain ⟨μ, hμ, pre, hpre⟩ := winnowGo_reach w xs hw i (by omega)
  have hub := nextWrite_ub w i μ hw hμ
  obtain ⟨j, h1, h2, h3⟩ := chain w xs i hw hb hi (i + w) i μ hμ (le_refl i)
    (by omega) (by omega)
  exact ⟨j, h1, h2, by rw [hpre]; exact List.mem_append_right _ h3⟩

/-- Witness for C2 at `w = 2`, `xs = [10, 1, 5, 6]`, window start `i = 1`. -/
theorem winnow_coverage_witness :
    1 ≤ 2 ∧ (∀ v ∈ [10, 1, 5, 6], v ≤ U64MAX) ∧ 1 + 2 ≤ ([10, 1, 5, 6] : List Nat).length
    ∧ ∃ j, 1 ≤ j ∧ j < 1 + 2 ∧ ([10, 1, 5, 6] : List Nat).getD j 0 ∈ winnowFilter 2 [10, 1, 5, 6] :=
  ⟨by decide, by decide, by decide,
    winnow_coverage 2 (by decide) [10, 1, 5, 6] (by decide) 1 (by decide)⟩

/-- C3: `Index::getPair` on names that are not registered does not fail with
a NotFound error: transcribing the code (`identifiers[a]`, `groups[x]` with
`operator[]`), the call on a fresh empty `Index(2,3)` returns a zero `Pair`
and silently default-registers both names with id 0 and an empty forward set
for id 0. -/
theorem getPair_no_notfound :
    (getPair (Index.mkEmpty 2 3) "a" "b").1 = ⟨"a", "b", 0, 0, 0⟩
    ∧ (getPair (Index.mkEmpty 2 3) "a" "b").2.identifiers = [("a", 0), ("b", 0)]
    ∧ (getPair (Index.mkEmpty 2 3) "a" "b").2.groups = [(0, [])] :=
  ⟨by decide, by decide, by decide⟩

/-- C4: `Index::getPair` does not leave the four maps unchanged: on the empty
`Index(2,3)` it inserts default entries into `identifiers` and `groups`. -/
theorem getPair_mutates_maps :
    (getPair (Index.mkEmpty 2 3) "a" "b").2.identifiers ≠ (Index.mkEmpty 2 3).identifiers
    ∧ (getPair (Index.mkEmpty 2 3) "a" "b").2.groups ≠ (Index.mkEmpty 2 3).groups :=
  ⟨by decide, by decide⟩

theorem alistFind_insert_self {α β : Type} [DecidableEq α] (k : α) (v : β)
    (m : List (α × β)) : alistFind k (alistInsert k v m) = some v := by
  induction m with
  | nil => simp [alistInsert, alistFind]
  | cons p ps ih =>
    by_cases h : p.1 = k
    · simp [alistInsert, alistFind, h]
    · simp [alistInsert, alistFind, h, ih]

theorem alistFind_insert_ne {α β : Type} [DecidableEq α] (k k' : α) (v : β)
    (m : List (α × β)) (hne : k' ≠ k) :
    alistFind k' (alistInsert k v m) = alistFind k' m := by
  induction m with
  | nil => simp [alistInsert, alistFind, Ne.symm hne]
  | cons p ps ih =>
    by_cases h : p.1 = k
    · subst h
      simp [alistInsert, alistFind, Ne.symm hne]
    · simp [alistInsert, alistFind, h, ih]

theorem alistGetD_insert_self {α β : Type} [DecidableEq α] (k : α) (v d : β)
    (m : List (α × β)) : alistGetD k (alistInsert k v m) d = v := by
  rw [alistGetD, alistFind_insert_self]
  rfl

theorem alistGetD_insert_ne {α β : Type} [DecidableEq α] (k k' : α) (v : β)
    (d : β) (m : List (α × β)) (hne : k' ≠ k) :
    alistGetD k' (alistInsert k v m) d = alistGetD k' m d := by
  rw [alistGetD, alistFind_insert_ne k k' v m hne, alistGetD]

theorem alistFind_none_iff {α β : Type} [DecidableEq α] (k : α)
    (m : List (α × β)) : alistFind k m = none ↔ k ∉ m.map Prod.fst := by
  induction m with
  | nil => simp [alistFind]
  | cons p ps ih =>
    by_cases h : p.1 = k
    · simp [alistFind, h]
    · rw [alistFind, if_neg h, ih]
      simp [Ne.symm h]

theorem alistInsert_of_none {α β : Type} [DecidableEq α] (k : α) (v : β)
    (m : List (α × β)) (h : alistFind k m = none) :
    alistInsert k v m = m ++ [(k, v)] := by
  induction m with
  | nil => simp [alistInsert]
  | cons p ps ih =>
    rw [alistFind] at h
    by_cases hp : p.1 = k
    · simp [hp] at h
    · rw [if_neg hp] at h
      simp [alistInsert, hp, ih h]

theorem alistInsert_keys_of_found {α β : Type} [DecidableEq α] (k : α) (v v0 : β)
    (m : List (α × β)) (h : alistFind k m = some v0) :
    (alistInsert k v m).map Prod.fst = m.map Prod.fst := by
  induction m with
  | nil => simp [alistFind] at h
  | cons p ps ih =>
    rw [alistFind] at h
    by_cases hp : p.1 = k
    · simp [alistInsert, hp]
    · rw [if_neg hp] at h
      simp [alistInsert, hp, ih h]

theorem alistFind_mem {α β : Type} [DecidableEq α] (k : α) (v : β) :
    ∀ (m : List (α × β)), alistFind k m = some v → (k, v) ∈ m := by
  intro m
  induction m with
  | nil => intro h; simp [alistFind] at h
  | cons p ps ih =>
    obtain ⟨p1, p2⟩ := p
    intro h
    rw [alistFind] at h
    by_cases hp : p1 = k
    · rw [if_pos hp] at h
      injection h with hv
      subst hp
      subst hv
      exact List.mem_cons_self _ _
    · rw [if_neg hp] at h
      exact List.mem_cons_of_mem _ (ih h)

theorem mem_alistInsert {α β : Type} [DecidableEq α] (k : α) (v : β)
    (m : List (α × β)) (p : α × β) (h : p ∈ alistInsert k v m) :
    p = (k, v) ∨ p ∈ m := by
  induction m with
  | nil => simpa [alistInsert] using h
  | cons q qs ih =>
    rw [alistInsert] at h
    by_cases hq : q.1 = k
    · rw [if_pos hq] at h
      rcases List.mem_cons.mp h with h | h
      · exact Or.inl h
      · exact Or.inr (List.mem_cons_of_mem _ h)
    · rw [if_neg hq] at h
      rcases List.mem_cons.mp h with h | h
      · exact Or.inr (by rw [h]; exact List.mem_cons_self _ _)
      · rcases ih h with h | h
        · exact Or.inl h
        · exact Or.inr (List.mem_cons_of_mem _ h)

theorem alistInsert_keys_nodup {α β : Type} [DecidableEq α] (k : α) (v : β)
    (m : List (α × β)) (h : (m.map Prod.fst).Nodup) :
    ((alistInsert k v m).map Prod.fst).Nodup := by
  cases hf : alistFind k m with
  | none =>
    rw [alistInsert_of_none k v m hf]
    have hk := (alistFind_none_iff k m).mp hf
    simp [List.nodup_append, h, hk]
  | some v0 =>
    rw [alistInsert_keys_of_found k v v0 m hf]
    exact h

theorem alistFind_append {α β : Type} [DecidableEq α] (k : α)
    (m m' : List (α × β)) :
    alistFind k (m ++ m') =
      match alistFind k m with
      | some v => some v
      | none => alistFind k m' := by
  induction m with
  | nil => simp [alistFind]
  | cons p ps ih =>
    by_cases hp : p.1 = k
    · simp [alistFind, hp]
    · simp [alistFind, hp, ih]

theorem mem_sinsert (x a : Nat) (l : List Nat) :
    x ∈ sinsert a l ↔ x = a ∨ x ∈ l := by
  induction l with
  | nil => simp [sinsert]
  | cons y ys ih =>
    rw [sinsert]
    by_cases h1 : a < y
    · rw [if_pos h1]
      simp only [List.mem_cons]
    · rw [if_neg h1]
      by_cases h2 : a = y
      · rw [if_pos h2]
        subst h2
        simp only [List.mem_cons]
        tauto
      · rw [if_neg h2]
        simp only [List.mem_cons, ih]
        tauto

theorem sinsert_ne_nil (a : Nat) (l : List Nat) : sinsert a l ≠ [] := by
  cases l with
  | nil => simp [sinsert]
  | cons y ys =>
    rw [sinsert]
    by_cases h1 : a < y
    · simp [h1]
    · rw [if_neg h1]
      by_cases h2 : a = y
      · simp [h2]
      · simp [h2]

theorem sorted_sinsert (a : Nat) (l : List Nat) (h : List.Sorted (· < ·) l) :
    List.Sorted (· < ·) (sinsert a l) := by
  induction l with
  | nil => simp [sinsert]
  | cons y ys ih =>
    rw [List.sorted_cons] at h
    rw [sinsert]
    by_cases h1 : a < y
    · rw [if_pos h1, List.sorted_cons]
      refine ⟨?_, List.sorted_cons.mpr h⟩
      intro b hb
      rcases List.mem_cons.mp hb with hb | hb
      · omega
      · have := h.1 b hb
        omega
    · rw [if_neg h1]
      by_cases h2 : a = y
      · rw [if_pos h2]
        exact List.sorted_cons.mpr h
      · rw [if_neg h2, List.sorted_cons]
        refine ⟨?_, ih h.2⟩
        intro b hb
        rcases (mem_sinsert b a ys).mp hb with hb | hb
        · omega
        · exact h.1 b hb

theorem alistGetD_sorted (m : List (Nat × List Nat)) (k : Nat)
    (h : ∀ p ∈ m, List.Sorted (· < ·) p.2) :
    List.Sorted (· < ·) (alistGetD k m []) := by
  rw [alistGetD]
  cases hf : alistFind k m with
  | none => simp
  | some v => exact h _ (alistFind_mem k v m hf)

theorem alistGetD_elem (P : Nat → Prop) (m : List (Nat × List Nat)) (k : Nat)
    (h : ∀ p ∈ m, ∀ v ∈ p.2, P v) : ∀ v ∈ alistGetD k m [], P v := by
  rw [alistGetD]
  cases hf : alistFind k m with
  | none => simp
  | some l => exact h _ (alistFind_mem k l m hf)

theorem rollHashes_lt (s : RollingHash) (ts : List Nat) :
    ∀ v ∈ rollHashes s ts, v < 33554393 := by
  induction ts generalizing s with
  | nil => simp [rollHashes]
  | cons t ts ih =>
    intro v hv
    rw [rollHashes] at hv
    rcases List.mem_cons.mp hv with hv | hv
    · rw [hv]
      exact Nat.mod_lt _ (by decide)
    · exact ih _ v hv

theorem winnowGo_lt (w : Nat) :
    ∀ (vs : List Nat) (st : WinnowState), st.h.length = w →
      (∀ v ∈ vs, v < 33554393) → ∀ y ∈ winnowGo w st vs, y < 33554393 := by
  intro vs
  induction vs with
  | nil => simp [winnowGo]
  | cons v vs ih =>
    intro st hlen hvs y hy
    have hv : v < 33554393 := hvs v (List.mem_cons_self _ _)
    have hvs' : ∀ x ∈ vs, x < 33554393 := fun x hx => hvs x (List.mem_cons_of_mem _ hx)
    have hlen' : (st.h.set ((st.r + 1) % w) v).length = w := by
      rw [List.length_set]; exact hlen
    have hwrit : w ≠ 0 → (st.h.set ((st.r + 1) % w) v).getD ((st.r + 1) % w) 0 = v := by
      intro hw0
      have hr : (st.r + 1) % w < w := Nat.mod_lt _ (Nat.pos_of_ne_zero hw0)
      rw [List.getD_eq_getElem _ _ (by omega : (st.r + 1) % w <
        (st.h.set ((st.r + 1) % w) v).length)]
      exact List.getElem_set_self _
    have hmin : (st.h.set ((st.r + 1) % w) v).getD
        (minIdx (st.h.set ((st.r + 1) % w) v)) 0 < 33554393 := by
      by_cases hw0 : w = 0
      · have h0 : st.h = [] := List.eq_nil_of_length_eq_zero (by omega)
        rw [h0, List.set_nil]
        simp
      · have hne : st.h.set ((st.r + 1) % w) v ≠ [] :=
          List.ne_nil_of_length_pos (by omega)
        have hr : (st.r + 1) % w < w := Nat.mod_lt _ (Nat.pos_of_ne_zero hw0)
        have hmem : (st.h.set ((st.r + 1) % w) v).getD ((st.r + 1) % w) 0 ∈
            st.h.set ((st.r + 1) % w) v := by
          rw [List.getD_eq_getElem _ _ (by omega)]
          exact List.getElem_mem _
        have := (minIdx_spec _ hne).2 _ hmem
        rw [hwrit hw0] at this
        omega
    have hnew : v < 33554393 → (st.h.set ((st.r + 1) % w) v).getD ((st.r + 1) % w) 0
        < 33554393 := by
      intro _
      by_cases hw0 : w = 0
      · have h0 : st.h = [] := List.eq_nil_of_length_eq_zero (by omega)
        rw [h0, List.set_nil]
        simp
      · rw [hwrit hw0]
        exact hv
    simp only [winnowGo] at hy
    by_cases hb : st.min = (st.r + 1) % w
    · rw [if_pos hb] at hy
      rcases List.mem_cons.mp hy with h1 | h1
      · rw [h1]; exact hmin
      · exact ih ⟨st.h.set ((st.r + 1) % w) v, (st.r + 1) % w,
          minIdx (st.h.set ((st.r + 1) % w) v)⟩ hlen' hvs' y h1
    · rw [if_neg hb] at hy
      by_cases hc : (st.h.set ((st.r + 1) % w) v).getD st.min 0 <
          (st.h.set ((st.r + 1) % w) v).getD ((st.r + 1) % w) 0
      · rw [if_pos hc] at hy
        rcases List.mem_cons.mp hy with h1 | h1
        · rw [h1]; exact hnew hv
        · exact ih ⟨st.h.set ((st.r + 1) % w) v, (st.r + 1) % w, (st.r + 1) % w⟩
            hlen' hvs' y h1
      · rw [if_neg hc] at hy
        exact ih ⟨st.h.set ((st.r + 1) % w) v, (st.r + 1) % w, st.min⟩
          hlen' hvs' y hy

theorem fingerprints_lt (k w : Nat) (tokens : List Nat) :
    ∀ y ∈ fingerprints k w tokens, y < 33554393 := by
  intro y hy
  exact winnowGo_lt w (windowHashes k tokens) _ (List.length_replicate _ _)
    (rollHashes_lt _ _) y hy

theorem insertHashes_index_mem (id : Nat) :
    ∀ (hs : List Nat) (maps : List (Nat × List Nat) × List (Nat × List Nat))
      (h' i' : Nat),
      i' ∈ alistGetD h' (insertHashes id maps hs).1 [] ↔
        i' ∈ alistGetD h' maps.1 [] ∨ (i' = id ∧ h' ∈ hs) := by
  intro hs
  induction hs with
  | nil => simp [insertHashes]
  | cons h hs ih =>
    intro maps h' i'
    rw [insertHashes, ih]
    by_cases he : h' = h
    · subst he
      rw [alistGetD_insert_self, mem_sinsert]
      simp only [List.mem_cons]
      tauto
    · rw [alistGetD_insert_ne _ _ _ _ _ he]
      simp only [List.mem_cons]
      tauto

theorem insertHashes_groups_mem (id : Nat) :
    ∀ (hs : List Nat) (maps : List (Nat × List Nat) × List (Nat × List Nat))
      (i' F : Nat),
      F ∈ alistGetD i' (insertHashes id maps hs).2 [] ↔
        F ∈ alistGetD i' maps.2 [] ∨ (i' = id ∧ F ∈ hs) := by
  intro hs
  induction hs with
  | nil => simp [insertHashes]
  | cons h hs ih =>
    intro maps i' F
    rw [insertHashes, ih]
    by_cases he : i' = id
    · subst he
      rw [alistGetD_insert_self, mem_sinsert]
      simp only [List.mem_cons]
      tauto
    · rw [alistGetD_insert_ne _ _ _ _ _ he]
      simp only [List.mem_cons]
      tauto

theorem insertHashes_groups_other (id : Nat) :
    ∀ (hs : List Nat) (maps : List (Nat × List Nat) × List (Nat × List Nat))
      (i' : Nat), i' ≠ id →
      alistGetD i' (insertHashes id maps hs).2 [] = alistGetD i' maps.2 [] := by
  intro hs
  induction hs with
  | nil => simp [insertHashes]
  | cons h hs ih =>
    intro maps i' hne
    rw [insertHashes, ih _ _ hne, alistGetD_insert_ne _ _ _ _ _ hne]

theorem insertHashes_groups_sorted (id : Nat) :
    ∀ (hs : List Nat) (maps : List (Nat × List Nat) × List (Nat × List Nat)),
      (∀ i, List.Sorted (· < ·) (alistGetD i maps.2 [])) →
      ∀ i, List.Sorted (· < ·) (alistGetD i (insertHashes id maps hs).2 []) := by
  intro hs
  induction hs with
  | nil => intro maps hsor i; simpa [insertHashes] using hsor i
  | cons h hs ih =>
    intro maps hsor i
    rw [insertHashes]
    refine ih _ ?_ i
    intro j
    by_cases hj : j = id
    · subst hj
      rw [alistGetD_insert_self]
      exact sorted_sinsert _ _ (hsor _)
    · rw [alistGetD_insert_ne _ _ _ _ _ hj]
      exact hsor j

theorem insertHashes_mirror (id : Nat)
    (hs : List Nat) (maps : List (Nat × List Nat) × List (Nat × List Nat))
    (hmir : ∀ F d, d ∈ alistGetD F maps.1 [] ↔ F ∈ alistGetD d maps.2 []) :
    ∀ F d, d ∈ alistGetD F (insertHashes id maps hs).1 [] ↔
      F ∈ alistGetD d (insertHashes id maps hs).2 [] := by
  intro F d
  rw [insertHashes_index_mem, insertHashes_groups_mem, hmir]

theorem insertHashes_index_wf (id : Nat) (P : Nat → Prop) (hPid : P id) :
    ∀ (hs : List Nat) (maps : List (Nat × List Nat) × List (Nat × List Nat)),
      (∀ x ∈ hs, x < 33554393) →
      (maps.1.map Prod.fst).Nodup →
      (∀ p ∈ maps.1, List.Sorted (· < ·) p.2 ∧ p.1 < 33554393 ∧ p.2 ≠ [] ∧
        ∀ v ∈ p.2, P v) →
      ((insertHashes id maps hs).1.map Prod.fst).Nodup
      ∧ ∀ p ∈ (insertHashes id maps hs).1,
          List.Sorted (· < ·) p.2 ∧ p.1 < 33554393 ∧ p.2 ≠ [] ∧ ∀ v ∈ p.2, P v := by
  intro hs
  induction hs with
  | nil =>
    intro maps _ hnd hent
    exact ⟨hnd, hent⟩
  | cons h hs ih =>
    intro maps hlt hnd hent
    rw [insertHashes]
    refine ih _ (fun x hx => hlt x (List.mem_cons_of_mem _ hx))
      (alistInsert_keys_nodup _ _ _ hnd) ?_
    intro p hp
    rcases mem_alistInsert _ _ _ _ hp with hp | hp
    · subst hp
      refine ⟨sorted_sinsert _ _ (alistGetD_sorted _ _ (fun q hq => (hent q hq).1)),
        hlt h (List.mem_cons_self _ _), sinsert_ne_nil _ _, ?_⟩
      intro v hv
      rcases (mem_sinsert v id _).mp hv with hv | hv
      · rw [hv]; exact hPid
      · exact alistGetD_elem P _ _ (fun q hq => (hent q hq).2.2.2) v hv
    · exact hent p hp

theorem addTokens_found (idx : Index) (name : String) (tokens : List Nat)
    (id : Nat) (hf : alistFind name idx.identifiers = some id) :
    addTokens idx name tokens =
      ⟨(insertHashes id (idx.index, idx.groups) (fingerprints idx.k idx.w tokens)).1,
       (insertHashes id (idx.index, idx.groups) (fingerprints idx.k idx.w tokens)).2,
       idx.identifiers, idx.names, idx.k, idx.w⟩ := by
  simp only [addTokens, hf]

theorem addTokens_new (idx : Index) (name : String) (tokens : List Nat)
    (hf : alistFind name idx.identifiers = none) :
    addTokens idx name tokens =
      ⟨(insertHashes (idx.identifiers.length % 2 ^ 16) (idx.index, idx.groups)
          (fingerprints idx.k idx.w tokens)).1,
       (insertHashes (idx.identifiers.length % 2 ^ 16) (idx.index, idx.groups)
          (fingerprints idx.k idx.w tokens)).2,
       idx.identifiers ++ [(name, idx.identifiers.length % 2 ^ 16)],
       alistInsert (idx.identifiers.length % 2 ^ 16) name idx.names,
       idx.k, idx.w⟩ := by
  simp only [addTokens, hf]

theorem namesOf_append (l : List (String × Nat)) (p : String × Nat) :
    namesOf (l ++ [p]) = alistInsert p.2 p.1 (namesOf l) := by
  rw [namesOf, namesOf, List.foldl_append]
  rfl

theorem reachable_wf (k w : Nat) (idx : Index) (h : Reachable k w idx) :
    IndexWF k w idx := by
  induction h with
  | empty =>
    refine ⟨rfl, rfl, by simp [Index.mkEmpty], by simp [Index.mkEmpty, namesOf],
      by simp [Index.mkEmpty], by simp [Index.mkEmpty], by simp [Index.mkEmpty],
      by simp [Index.mkEmpty], by simp [Index.mkEmpty], by simp [Index.mkEmpty],
      ?_, ?_⟩
    · intro i
      simp [Index.mkEmpty, alistGetD, alistFind]
    · intro F d
      simp [Index.mkEmpty, alistGetD, alistFind]
  | add idx name tokens hr ih =>
    obtain ⟨keq, weq, ids_eq, names_eq, names_nodup, index_sorted, index_keys_nodup,
      index_keys_lt, index_nonempty, index_ids, groups_sorted, mirror⟩ := ih
    cases hf : alistFind name idx.identifiers with
    | some id =>
      rw [addTokens_found idx name tokens id hf]
      have hid : id ∈ idx.identifiers.map Prod.snd :=
        List.mem_map.mpr ⟨(name, id), alistFind_mem name id idx.identifiers hf, rfl⟩
      have hwf := insertHashes_index_wf id (· ∈ idx.identifiers.map Prod.snd) hid
        (fingerprints idx.k idx.w tokens) (idx.index, idx.groups)
        (fingerprints_lt _ _ _) index_keys_nodup
        (fun p hp => ⟨index_sorted p hp, index_keys_lt p hp, index_nonempty p hp,
          index_ids p hp⟩)
      exact ⟨keq, weq, ids_eq, names_eq, names_nodup,
        fun p hp => (hwf.2 p hp).1, hwf.1, fun p hp => (hwf.2 p hp).2.1,
        fun p hp => (hwf.2 p hp).2.2.1, fun p hp => (hwf.2 p hp).2.2.2,
        insertHashes_groups_sorted id _ _ groups_sorted,
        insertHashes_mirror id _ _ mirror⟩
    | none =>
      rw [addTokens_new idx name tokens hf]
      have hids_eq' : (idx.identifiers ++
          [(name, idx.identifiers.length % 2 ^ 16)]).map Prod.snd =
          (List.range (idx.identifiers ++
            [(name, idx.identifiers.length % 2 ^ 16)]).length).map (· % 2 ^ 16) := by
        have hlen : (idx.identifiers ++
            [(name, idx.identifiers.length % 2 ^ 16)]).length =
            idx.identifiers.length + 1 := by simp
        rw [List.map_append, hlen, List.range_succ, List.map_append, ids_eq]
        simp
      have hnames_eq' : alistInsert (idx.identifiers.length % 2 ^ 16) name idx.names =
          namesOf (idx.identifiers ++ [(name, idx.identifiers.length % 2 ^ 16)]) := by
        rw [namesOf_append, ← names_eq]
      have hname : name ∉ idx.identifiers.map Prod.fst :=
        (alistFind_none_iff name _).mp hf
      have hnames_nodup' : ((idx.identifiers ++
          [(name, idx.identifiers.length % 2 ^ 16)]).map Prod.fst).Nodup := by
        rw [List.map_append]
        simp [List.nodup_append, names_nodup, hname]
      have hid : idx.identifiers.length % 2 ^ 16 ∈ (idx.identifiers ++
          [(name, idx.identifiers.length % 2 ^ 16)]).map Prod.snd := by
        rw [List.map_append]
        exact List.mem_append_right _ (by simp)
      have hwf := insertHashes_index_wf (idx.identifiers.length % 2 ^ 16)
        (· ∈ (idx.identifiers ++ [(name, idx.identifiers.length % 2 ^ 16)]).map Prod.snd)
        hid (fingerprints idx.k idx.w tokens) (idx.index, idx.groups)
        (fingerprints_lt _ _ _) index_keys_nodup
        (fun p hp => ⟨index_sorted p hp, index_keys_lt p hp, index_nonempty p hp,
          fun v hv => by
            rw [List.map_append]
            exact List.mem_append_left _ (index_ids p hp v hv)⟩)
      exact ⟨keq, weq, hids_eq', hnames_eq', hnames_nodup',
        fun p hp => (hwf.2 p hp).1, hwf.1, fun p hp => (hwf.2 p hp).2.1,
        fun p hp => (hwf.2 p hp).2.2.1, fun p hp => (hwf.2 p hp).2.2.2,
        insertHashes_groups_sorted _ _ _ groups_sorted,
        insertHashes_mirror _ _ _ mirror⟩

/-- C6: after any finite sequence of `addToGroup` calls starting from an
empty index, the forward sets and the inverted map are exact mirror images:
a DocumentId `d` appears in the inverted-map entry for fingerprint `F` if
and only if `F` is in `d`'s forward set. -/
theorem index_mirror_reachable (k w : Nat) (idx : Index) (h : Reachable k w idx) :
    ∀ F d, d ∈ alistGetD F idx.index [] ↔ F ∈ alistGetD d idx.groups [] :=
  (reachable_wf k w idx h).mirror

/-- Witness for C6 on the index built by one `addToGroup` call
(`k = 1`, `w = 2`, tokens `[1,2,3]`), at fingerprint 2 and id 0. -/
theorem index_mirror_reachable_witness :
    0 ∈ alistGetD 2 (addTokens (Index.mkEmpty 1 2) "a" [1, 2, 3]).index [] ↔
      2 ∈ alistGetD 0 (addTokens (Index.mkEmpty 1 2) "a" [1, 2, 3]).groups [] :=
  index_mirror_reachable 1 2 _ (Reachable.add _ "a" [1, 2, 3] Reachable.empty) 2 0

/-- C9: re-registering an existing name resolves to the existing DocumentId
— `identifiers` and `names` are unchanged, so no duplicate id is created —
and the fingerprints derived from the new token content are merged
(set-union) into that document's existing forward set and into the inverted
map, rather than replacing previous content. -/
theorem addTokens_existing_merges (idx : Index) (name : String) (id : Nat)
    (tokens : List Nat) (hfound : alistFind name idx.identifiers = some id) :
    (addTokens idx name tokens).identifiers = idx.identifiers
    ∧ (addTokens idx name tokens).names = idx.names
    ∧ (∀ F, F ∈ alistGetD id (addTokens idx name tokens).groups [] ↔
        F ∈ alistGetD id idx.groups [] ∨ F ∈ fingerprints idx.k idx.w tokens)
    ∧ (∀ d, d ≠ id → alistGetD d (addTokens idx name tokens).groups [] =
        alistGetD d idx.groups [])
    ∧ (∀ F d, d ∈ alistGetD F (addTokens idx name tokens).index [] ↔
        d ∈ alistGetD F idx.index [] ∨
          (d = id ∧ F ∈ fingerprints idx.k idx.w tokens)) := by
  rw [addTokens_found idx name tokens id hfound]
  refine ⟨rfl, rfl, ?_, ?_, ?_⟩
  · intro F
    rw [insertHashes_groups_mem]
    simp
  · intro d hd
    exact insertHashes_groups_other id _ _ d hd
  · intro F d
    exact insertHashes_index_mem id _ _ F d

/-- Witness for C9: re-adding name "a" with new tokens `[9]` to the index
already holding "a"; identifiers unchanged and the inverted entry for
fingerprint 2 is characterized as the merge. -/
theorem addTokens_existing_merges_witness :
    alistFind "a" (addTokens (Index.mkEmpty 1 2) "a" [1, 2, 3]).identifiers = some 0
    ∧ (addTokens (addTokens (Index.mkEmpty 1 2) "a" [1, 2, 3]) "a" [9]).identifiers =
        (addTokens (Index.mkEmpty 1 2) "a" [1, 2, 3]).identifiers
    ∧ (0 ∈ alistGetD 2 (addTokens (addTokens (Index.mkEmpty 1 2) "a" [1, 2, 3])
          "a" [9]).index [] ↔
        0 ∈ alistGetD 2 (addTokens (Index.mkEmpty 1 2) "a" [1, 2, 3]).index [] ∨
          (0 = 0 ∧ 2 ∈ fingerprints (addTokens (Index.mkEmpty 1 2) "a" [1, 2, 3]).k
            (addTokens (Index.mkEmpty 1 2) "a" [1, 2, 3]).w [9])) :=
  ⟨by decide,
   (addTokens_existing_merges _ "a" 0 [9] (by decide)).1,
   (addTokens_existing_merges _ "a" 0 [9] (by decide)).2.2.2.2 2 0⟩

/-- C10: every value `RollingHash::operator()` returns is strictly below the
modulus `33554393 < 2^32`, and consequently every fingerprint key stored in
the inverted index of a reachable index state fits in 32 bits, making the
`uint32_t` cast applied during deserialization lossless. -/
theorem fingerprint_bounds (k w : Nat) (idx : Index) (h : Reachable k w idx) :
    (∀ (s : RollingHash) (tok : Nat), (s.call tok).2 < 33554393)
    ∧ ∀ p ∈ idx.index, p.1 < 2 ^ 32 ∧ p.1 % 2 ^ 32 = p.1 := by
  constructor
  · intro s tok
    show (base * s.hash + tok + s.max_base * s.memory.getD s.i 0) % 2 ^ 64
        % 33554393 < 33554393
    exact Nat.mod_lt _ (by decide)
  · intro p hp
    have h1 := (reachable_wf k w idx h).index_keys_lt p hp
    exact ⟨by omega, Nat.mod_eq_of_lt (by omega)⟩

/-- Witness for C10 at a one-call rolling hash and the entry `(1, [0])` of
the index built from tokens `[1,2,3]` with `k = 1`, `w = 2`. -/
theorem fingerprint_bounds_witness :
    ((mkRollingHash 1).call 7).2 < 33554393
    ∧ ((1, [0]) : Nat × List Nat).1 < 2 ^ 32
    ∧ ((1, [0]) : Nat × List Nat).1 % 2 ^ 32 = ((1, [0]) : Nat × List Nat).1 :=
  ⟨(fingerprint_bounds 1 2 _ (Reachable.add _ "a" [1, 2, 3] Reachable.empty)).1
      (mkRollingHash 1) 7,
   (fingerprint_bounds 1 2 _ (Reachable.add _ "a" [1, 2, 3] Reachable.empty)).2
      (1, [0]) (by decide)⟩

theorem winnowGo_length_le (w : Nat) :
    ∀ (vs : List Nat) (st : WinnowState), (winnowGo w st vs).length ≤ vs.length := by
  intro vs
  induction vs with
  | nil => simp [winnowGo]
  | cons v vs ih =>
    intro st
    rw [winnowGo]
    by_cases hb : st.min = (st.r + 1) % w
    · rw [if_pos hb]
      simpa using ih _
    · rw [if_neg hb]
      by_cases hc : (st.h.set ((st.r + 1) % w) v).getD st.min 0 <
          (st.h.set ((st.r + 1) % w) v).getD ((st.r + 1) % w) 0
      · rw [if_pos hc]
        simpa using ih _
      · rw [if_neg hc]
        exact le_trans (ih _) (by rw [List.length_cons]; omega)

theorem rollHashes_length (s : RollingHash) (ts : List Nat) :
    (rollHashes s ts).length = ts.length := by
  induction ts generalizing s with
  | nil => simp [rollHashes]
  | cons t ts ih => simp [rollHashes, ih]

theorem fingerprints_length_le (k w : Nat) (ts : List Nat) :
    (fingerprints k w ts).length ≤ ts.length := by
  rw [fingerprints, winnowFilter]
  exact le_trans (winnowGo_length_le w _ _)
    (le_of_eq (rollHashes_length _ _))

theorem match_fold_split (ix : List (Nat × List Nat)) (hashes : List Nat) :
    ∀ (m0 : List (Nat × Nat)) (t0 : Nat),
      hashes.foldl (fun acc h =>
        ((match alistFind h ix with
          | none => acc.1
          | some ids => ids.foldl
              (fun m id => alistInsert id ((alistGetD id m 0 + 1) % 2 ^ 32) m) acc.1),
         (acc.2 + 1) % 2 ^ 32)) (m0, t0) =
      (hashes.foldl (fun m h =>
          match alistFind h ix with
          | none => m
          | some ids => ids.foldl
              (fun m id => alistInsert id ((alistGetD id m 0 + 1) % 2 ^ 32) m) m) m0,
       hashes.foldl (fun t _ => (t + 1) % 2 ^ 32) t0) := by
  induction hashes with
  | nil => intro m0 t0; rfl
  | cons h hs ih =>
    intro m0 t0
    rw [List.foldl_cons, List.foldl_cons, List.foldl_cons, ih]

theorem count_total : ∀ (hs : List Nat) (t0 : Nat), t0 < 2 ^ 32 →
    hs.foldl (fun t _ => (t + 1) % 2 ^ 32) t0 = (t0 + hs.length) % 2 ^ 32 := by
  intro hs
  induction hs with
  | nil =>
    intro t0 ht
    rw [List.foldl_nil, List.length_nil, Nat.add_zero, Nat.mod_eq_of_lt ht]
  | cons h hs ih =>
    intro t0 ht
    rw [List.foldl_cons, ih _ (Nat.mod_lt _ (by decide)), Nat.mod_add_mod,
      List.length_cons]
    congr 1
    omega

theorem shared0_eq : ∀ (l : List (String × Nat)) (acc : List (Nat × Nat)),
    (∀ p ∈ l, alistFind p.2 acc = none) → (l.map Prod.snd).Nodup →
    l.foldl (fun m p => alistInsert p.2 0 m) acc = acc ++ l.map (fun p => (p.2, 0)) := by
  intro l
  induction l with
  | nil => intro acc _ _; simp
  | cons p l ih =>
    intro acc hfresh hnd
    rw [List.foldl_cons, alistInsert_of_none _ _ _ (hfresh p (List.mem_cons_self _ _))]
    rw [List.map_cons] at hnd
    have hnd' := List.nodup_cons.mp hnd
    rw [ih (acc ++ [(p.2, 0)]) ?_ hnd'.2]
    · simp
    · intro q hq
      rw [alistFind_append, hfresh q (List.mem_cons_of_mem _ hq), alistFind]
      have hne : q.2 ≠ p.2 := by
        intro hc
        exact hnd'.1 (hc ▸ List.mem_map.mpr ⟨q, hq, rfl⟩)
      rw [if_neg (fun hc : p.2 = q.2 => hne hc.symm), alistFind]

theorem incr_fold_keys : ∀ (ids : List Nat) (m : List (Nat × Nat)),
    (∀ i ∈ ids, i ∈ m.map Prod.fst) →
    ((ids.foldl (fun m id => alistInsert id ((alistGetD id m 0 + 1) % 2 ^ 32) m) m).map
      Prod.fst) = m.map Prod.fst := by
  intro ids
  induction ids with
  | nil => intro m _; rfl
  | cons i ids ih =>
    intro m hmem
    rw [List.foldl_cons]
    cases hf : alistFind i m with
    | none =>
      exact absurd (hmem i (List.mem_cons_self _ _))
        ((alistFind_none_iff i m).mp hf)
    | some v =>
      have hkeys := alistInsert_keys_of_found i ((alistGetD i m 0 + 1) % 2 ^ 32) v m hf
      rw [ih _ (fun j hj => by rw [hkeys]; exact hmem j (List.mem_cons_of_mem _ hj)),
        hkeys]

theorem match_fold_keys (ix : List (Nat × List Nat)) :
    ∀ (hashes : List Nat) (m : List (Nat × Nat)),
      (∀ p ∈ ix, ∀ i ∈ p.2, i ∈ m.map Prod.fst) →
      ((hashes.foldl (fun m h =>
          match alistFind h ix with
          | none => m
          | some ids => ids.foldl
              (fun m id => alistInsert id ((alistGetD id m 0 + 1) % 2 ^ 32) m) m) m).map
        Prod.fst) = m.map Prod.fst := by
  intro hashes
  induction hashes with
  | nil => intro m _; rfl
  | cons h hs ih =>
    intro m hmem
    rw [List.foldl_cons]
    cases hf : alistFind h ix with
    | none => exact ih m hmem
    | some ids =>
      have hids : ∀ i ∈ ids, i ∈ m.map Prod.fst :=
        hmem (h, ids) (alistFind_mem h ids ix hf)
      have hkeys := incr_fold_keys ids m hids
      rw [ih _ (fun p hp i hi => by rw [hkeys]; exact hmem p hp i hi), hkeys]

theorem foldl_insert_untouched : ∀ (l : List (String × Nat))
    (acc : List (Nat × String)) (j : Nat), (∀ p ∈ l, p.2 ≠ j) →
    alistFind j (l.foldl (fun m p => alistInsert p.2 p.1 m) acc) = alistFind j acc := by
  intro l
  induction l with
  | nil => intro acc j _; rfl
  | cons p l ih =>
    intro acc j hne
    rw [List.foldl_cons, ih _ _ (fun q hq => hne q (List.mem_cons_of_mem _ hq)),
      alistFind_insert_ne _ _ _ _ (fun hc => hne p (List.mem_cons_self _ _) hc.symm)]

theorem namesOf_find : ∀ (l : List (String × Nat)), (l.map Prod.snd).Nodup →
    ∀ p ∈ l, alistFind p.2 (namesOf l) = some p.1 := by
  have main : ∀ (l : List (String × Nat)) (acc : List (Nat × String)),
      (l.map Prod.snd).Nodup →
      ∀ p ∈ l, alistFind p.2 (l.foldl (fun m q => alistInsert q.2 q.1 m) acc) =
        some p.1 := by
    intro l
    induction l with
    | nil => intro acc _ p hp; cases hp
    | cons q l ih =>
      intro acc hnd p hp
      rw [List.map_cons] at hnd
      have hnd' := List.nodup_cons.mp hnd
      rcases List.mem_cons.mp hp with hp | hp
      · subst hp
        rw [List.foldl_cons,
          foldl_insert_untouched l _ p.2
            (fun r hr hc => hnd'.1 (hc ▸ List.mem_map.mpr ⟨r, hr, rfl⟩)),
          alistFind_insert_self]
      · rw [List.foldl_cons]
        exact ih _ hnd'.2 p hp
  intro l hnd p hp
  exact main l [] hnd p hp

theorem mapM_pairs (nms : List (Nat × String)) (gps : List (Nat × List Nat))
    (total : Nat) :
    ∀ (sh : List (Nat × Nat)) (ids : List (String × Nat)),
      sh.map Prod.fst = ids.map Prod.snd →
      (∀ p ∈ ids, alistFind p.2 nms = some p.1) →
      ∃ ps, sh.mapM (fun p => (alistFind p.1 nms).map (fun nm =>
          (⟨"external", nm, p.2, total,
            (alistGetD p.1 gps []).length % 2 ^ 32⟩ : Pair))) = some ps
        ∧ ps.map Pair.right = ids.map Prod.fst
        ∧ ∀ p ∈ ps, p.leftTotal = total := by
  intro sh
  induction sh with
  | nil =>
    intro ids hkeys _
    have : ids = [] := by
      cases ids with
      | nil => rfl
      | cons i ids => simp at hkeys
    subst this
    exact ⟨[], rfl, rfl, by intro p hp; cases hp⟩
  | cons s sh ih =>
    intro ids hkeys hfind
    cases ids with
    | nil => simp at hkeys
    | cons i ids =>
      simp only [List.map_cons, List.cons.injEq] at hkeys
      obtain ⟨ps', hps1, hps2, hps3⟩ := ih ids hkeys.2
        (fun p hp => hfind p (List.mem_cons_of_mem _ hp))
      have hfi : alistFind s.1 nms = some i.1 := by
        rw [hkeys.1]
        exact hfind i (List.mem_cons_self _ _)
      refine ⟨⟨"external", i.1, s.2, total,
          (alistGetD s.1 gps []).length % 2 ^ 32⟩ :: ps', ?_, ?_, ?_⟩
      · rw [List.mapM_cons, hfi, hps1]
        rfl
      · simp [hps2]
      · intro p hp
        rcases List.mem_cons.mp hp with hp | hp
        · rw [hp]
        · exact hps3 p hp

/-- C8: on any index reachable by `addDocument` calls (with at most `2^16`
documents, so `uint16_t` ids are distinct) and any token input,
`matchTokens` succeeds and returns exactly one result entry per currently
registered document — the `right` names of the results are exactly the
registered names, in registration order, so documents with `covered == 0`
are included — and every entry reports `totalExternal` (`leftTotal`) as the
number of winnowing emissions produced from the input, counting repeated
emissions separately. -/
theorem matchTokens_complete (k w : Nat) (idx : Index) (hr : Reachable k w idx)
    (hcount : idx.identifiers.length ≤ 2 ^ 16) (ts : List Nat)
    (hts : ts.length < 2 ^ 32) :
    ∃ ps, matchTokens idx ts = some ps
      ∧ ps.map Pair.right = idx.identifiers.map Prod.fst
      ∧ ∀ p ∈ ps, p.leftTotal = (fingerprints idx.k idx.w ts).length := by
  obtain wf := reachable_wf k w idx hr
  have hidsnodup : (idx.identifiers.map Prod.snd).Nodup := by
    rw [wf.ids_eq]
    have hmapid : (List.range idx.identifiers.length).map (· % 2 ^ 16) =
        List.range idx.identifiers.length := by
      have h1 : (List.range idx.identifiers.length).map (· % 2 ^ 16) =
          (List.range idx.identifiers.length).map id :=
        List.map_congr_left (fun x hx => by
          rw [List.mem_range] at hx
          exact Nat.mod_eq_of_lt (by omega))
      rw [h1, List.map_id]
    rw [hmapid]
    exact List.nodup_range _
  have hshared0 : idx.identifiers.foldl (fun m p => alistInsert p.2 0 m)
      ([] : List (Nat × Nat)) = idx.identifiers.map (fun p => (p.2, 0)) := by
    have := shared0_eq idx.identifiers [] (fun p _ => rfl) hidsnodup
    simpa using this
  have hkeys0 : (idx.identifiers.map (fun p => (p.2, (0 : Nat)))).map Prod.fst =
      idx.identifiers.map Prod.snd := by
    rw [List.map_map]
    rfl
  have hfoldkeys : ((fingerprints idx.k idx.w ts).foldl (fun m h =>
      match alistFind h idx.index with
      | none => m
      | some ids => ids.foldl
          (fun m id => alistInsert id ((alistGetD id m 0 + 1) % 2 ^ 32) m) m)
      (idx.identifiers.map (fun p => (p.2, 0)))).map Prod.fst =
      idx.identifiers.map Prod.snd := by
    rw [match_fold_keys idx.index _ _ ?_, hkeys0]
    intro p hp i hi
    rw [hkeys0]
    exact wf.index_ids p hp i hi
  have hnf : ∀ p ∈ idx.identifiers, alistFind p.2 idx.names = some p.1 := by
    rw [wf.names_eq]
    exact namesOf_find _ hidsnodup
  have hlen : (fingerprints idx.k idx.w ts).length < 2 ^ 32 :=
    lt_of_le_of_lt (fingerprints_length_le _ _ _) hts
  have htot : (fingerprints idx.k idx.w ts).foldl (fun t _ => (t + 1) % 2 ^ 32) 0 =
      (fingerprints idx.k idx.w ts).length := by
    rw [count_total _ 0 (by decide), Nat.zero_add, Nat.mod_eq_of_lt hlen]
  obtain ⟨ps, hps1, hps2, hps3⟩ := mapM_pairs idx.names idx.groups
    ((fingerprints idx.k idx.w ts).length)
    ((fingerprints idx.k idx.w ts).foldl (fun m h =>
      match alistFind h idx.index with
      | none => m
      | some ids => ids.foldl
          (fun m id => alistInsert id ((alistGetD id m 0 + 1) % 2 ^ 32) m) m)
      (idx.identifiers.map (fun p => (p.2, 0))))
    idx.identifiers hfoldkeys hnf
  refine ⟨ps, ?_, hps2, hps3⟩
  simp only [matchTokens]
  rw [hshared0, match_fold_split, htot]
  exact hps1

/-- Witness for C8 on the one-document index (`k = 1`, `w = 2`, tokens
`[1,2,3]`) matched against the external token input `[5]`. -/
theorem matchTokens_complete_witness :
    (addTokens (Index.mkEmpty 1 2) "a" [1, 2, 3]).identifiers.length ≤ 2 ^ 16
    ∧ ([5] : List Nat).length < 2 ^ 32
    ∧ ∃ ps, matchTokens (addTokens (Index.mkEmpty 1 2) "a" [1, 2, 3]) [5] = some ps
        ∧ ps.map Pair.right =
            (addTokens (Index.mkEmpty 1 2) "a" [1, 2, 3]).identifiers.map Prod.fst
        ∧ ∀ p ∈ ps, p.leftTotal =
            (fingerprints (addTokens (Index.mkEmpty 1 2) "a" [1, 2, 3]).k
              (addTokens (Index.mkEmpty 1 2) "a" [1, 2, 3]).w [5]).length :=
  ⟨by decide, by decide,
   matchTokens_complete 1 2 _ (Reachable.add _ "a" [1, 2, 3] Reachable.empty)
     (by decide) [5] (by decide)⟩

theorem sorted_eq_of_mem_iff :
    ∀ (l1 l2 : List Nat), List.Sorted (· < ·) l1 → List.Sorted (· < ·) l2 →
      (∀ x, x ∈ l1 ↔ x ∈ l2) → l1 = l2 := by
  intro l1
  induction l1 with
  | nil =>
    intro l2 _ _ hmem
    cases l2 with
    | nil => rfl
    | cons y ys => exact absurd ((hmem y).mpr (List.mem_cons_self _ _)) (by simp)
  | cons x xs ih =>
    intro l2 hs1 hs2 hmem
    cases l2 with
    | nil => exact absurd ((hmem x).mp (List.mem_cons_self _ _)) (by simp)
    | cons y ys =>
      rw [List.sorted_cons] at hs1 hs2
      have hxy : x = y := by
        rcases List.mem_cons.mp ((hmem x).mp (List.mem_cons_self _ _)) with h | h
        · exact h
        · rcases List.mem_cons.mp ((hmem y).mpr (List.mem_cons_self _ _)) with h' | h'
          · omega
          · have := hs1.1 y h'
            have := hs2.1 x h
            omega
      subst hxy
      have htails : ∀ z, z ∈ xs ↔ z ∈ ys := by
        intro z
        constructor
        · intro hz
          have hlt := hs1.1 z hz
          rcases List.mem_cons.mp ((hmem z).mp (List.mem_cons_of_mem _ hz)) with h | h
          · omega
          · exact h
        · intro hz
          have hlt := hs2.1 z hz
          rcases List.mem_cons.mp ((hmem z).mpr (List.mem_cons_of_mem _ hz)) with h | h
          · omega
          · exact h
      rw [ih ys hs1.2 hs2.2 htails]

theorem alistGetD_mem_iff (m : List (Nat × List Nat))
    (hnd : (m.map Prod.fst).Nodup) (kk x : Nat) :
    x ∈ alistGetD kk m [] ↔ ∃ p ∈ m, p.1 = kk ∧ x ∈ p.2 := by
  induction m with
  | nil => simp [alistGetD, alistFind]
  | cons p ps ih =>
    rw [List.map_cons, List.nodup_cons] at hnd
    rw [alistGetD, alistFind]
    by_cases hp : p.1 = kk
    · rw [if_pos hp]
      simp only [Option.getD_some]
      constructor
      · intro hx
        exact ⟨p, List.mem_cons_self _ _, hp, hx⟩
      · rintro ⟨q, hq, hqk, hqx⟩
        rcases List.mem_cons.mp hq with hq | hq
        · rw [hq] at hqx
          exact hqx
        · exact absurd (List.mem_map.mpr ⟨q, hq, hqk.trans hp.symm⟩) hnd.1
    · rw [if_neg hp]
      rw [show (alistFind kk ps).getD [] = alistGetD kk ps [] from rfl, ih hnd.2]
      constructor
      · rintro ⟨q, hq, hqk, hqx⟩
        exact ⟨q, List.mem_cons_of_mem _ hq, hqk, hqx⟩
      · rintro ⟨q, hq, hqk, hqx⟩
        rcases List.mem_cons.mp hq with hq | hq
        · subst hq
          exact absurd hqk hp
        · exact ⟨q, hq, hqk, hqx⟩

theorem foldl_congr_mem {α β : Type} (l : List α) (f g : β → α → β) :
    (∀ acc, ∀ x ∈ l, f acc x = g acc x) →
    ∀ (b : β), l.foldl f b = l.foldl g b := by
  induction l with
  | nil => intro _ b; rfl
  | cons x xs ih =>
    intro h b
    rw [List.foldl_cons, List.foldl_cons, h b x (List.mem_cons_self _ _)]
    exact ih (fun acc y hy => h acc y (List.mem_cons_of_mem _ hy)) _

theorem sinsert_of_gt : ∀ (acc : List Nat) (x : Nat), (∀ y ∈ acc, y < x) →
    sinsert x acc = acc ++ [x] := by
  intro acc
  induction acc with
  | nil => intro x _; rfl
  | cons y ys ih =>
    intro x hlt
    have hy := hlt y (List.mem_cons_self _ _)
    rw [sinsert, if_neg (by omega), if_neg (by omega), List.cons_append,
      ih x (fun z hz => hlt z (List.mem_cons_of_mem _ hz))]

theorem sinsert_fold_sorted : ∀ (l acc : List Nat),
    List.Sorted (· < ·) (acc ++ l) →
    l.foldl (fun s x => sinsert x s) acc = acc ++ l := by
  intro l
  induction l with
  | nil => intro acc _; simp
  | cons x xs ih =>
    intro acc hs
    have hlt : ∀ y ∈ acc, y < x := by
      intro y hy
      have := (List.pairwise_append.mp hs).2.2 y hy x (List.mem_cons_self _ _)
      exact this
    rw [List.foldl_cons, sinsert_of_gt acc x hlt, ih (acc ++ [x]) (by
      rw [List.append_assoc]
      exact hs), List.append_assoc]
    rfl

theorem alistFind_append_self {α β : Type} [DecidableEq α] (h : α) (cur : β)
    (m0 : List (α × β)) (hf : alistFind h m0 = none) :
    alistFind h (m0 ++ [(h, cur)]) = some cur := by
  rw [alistFind_append, hf]
  simp [alistFind]

theorem alistInsert_append_self {α β : Type} [DecidableEq α] (h : α) (v cur : β) :
    ∀ (m0 : List (α × β)), alistFind h m0 = none →
      alistInsert h v (m0 ++ [(h, cur)]) = m0 ++ [(h, v)] := by
  intro m0
  induction m0 with
  | nil => intro _; simp [alistInsert]
  | cons p ps ih =>
    intro hf
    rw [alistFind] at hf
    by_cases hp : p.1 = h
    · rw [if_pos hp] at hf
      cases hf
    · rw [if_neg hp] at hf
      rw [List.cons_append, alistInsert, if_neg hp, ih hf, List.cons_append]

theorem insert_set_fold_go (h : Nat) :
    ∀ (ids : List Nat) (m0 : List (Nat × List Nat)) (cur : List Nat),
      alistFind h m0 = none →
      ids.foldl (fun m idv => alistInsert h (sinsert idv (alistGetD h m [])) m)
        (m0 ++ [(h, cur)]) =
      m0 ++ [(h, ids.foldl (fun s x => sinsert x s) cur)] := by
  intro ids
  induction ids with
  | nil => intro m0 cur _; rfl
  | cons i ids ih =>
    intro m0 cur hf
    rw [List.foldl_cons, List.foldl_cons,
      show alistGetD h (m0 ++ [(h, cur)]) [] = cur by
        rw [alistGetD, alistFind_append_self h cur m0 hf]; rfl,
      alistInsert_append_self h _ cur m0 hf, ih m0 _ hf]

theorem deser_entry_clean (h : Nat) (ids : List Nat)
    (m : List (Nat × List Nat)) (hf : alistFind h m = none)
    (hsort : List.Sorted (· < ·) ids) (hne : ids ≠ [])
    (hbound : ∀ v ∈ ids, v < 2 ^ 16) :
    ids.foldl (fun m idv =>
        alistInsert h (sinsert (idv % 2 ^ 16) (alistGetD h m [])) m) m =
      m ++ [(h, ids)] := by
  rw [foldl_congr_mem ids _
    (fun m idv => alistInsert h (sinsert idv (alistGetD h m [])) m)
    (fun acc x hx => by rw [Nat.mod_eq_of_lt (hbound x hx)])]
  cases ids with
  | nil => exact absurd rfl hne
  | cons i ids =>
    rw [List.foldl_cons,
      show alistGetD h m [] = [] by rw [alistGetD, hf]; rfl,
      show sinsert i [] = [i] from rfl,
      alistInsert_of_none h [i] m hf, insert_set_fold_go h ids m [i] hf]
    have : ids.foldl (fun s x => sinsert x s) [i] = i :: ids := by
      have := sinsert_fold_sorted ids [i] (by simpa using hsort)
      simpa using this
    rw [this]

theorem deser_ids_split : ∀ (l : List (String × Nat)) (a : List (String × Nat))
    (b : List (Nat × String)),
    l.foldl (fun acc p => (alistInsert p.1 (p.2 % 2 ^ 16) acc.1,
        alistInsert (p.2 % 2 ^ 16) p.1 acc.2)) (a, b) =
      (l.foldl (fun m p => alistInsert p.1 (p.2 % 2 ^ 16) m) a,
       l.foldl (fun m p => alistInsert (p.2 % 2 ^ 16) p.1 m) b) := by
  intro l
  induction l with
  | nil => intro a b; rfl
  | cons p l ih =>
    intro a b
    rw [List.foldl_cons, List.foldl_cons, List.foldl_cons, ih]

theorem deser_inner_split (hk : Nat) : ∀ (ids : List Nat)
    (a b : List (Nat × List Nat)),
    ids.foldl (fun acc2 idv =>
        (alistInsert hk (sinsert (idv % 2 ^ 16) (alistGetD hk acc2.1 [])) acc2.1,
         alistInsert (idv % 2 ^ 16)
           (sinsert hk (alistGetD (idv % 2 ^ 16) acc2.2 [])) acc2.2)) (a, b) =
      (ids.foldl (fun m idv =>
          alistInsert hk (sinsert (idv % 2 ^ 16) (alistGetD hk m [])) m) a,
       ids.foldl (fun m idv =>
          alistInsert (idv % 2 ^ 16)
            (sinsert hk (alistGetD (idv % 2 ^ 16) m [])) m) b) := by
  intro ids
  induction ids with
  | nil => intro a b; rfl
  | cons i ids ih =>
    intro a b
    rw [List.foldl_cons, List.foldl_cons, List.foldl_cons, ih]

theorem deser_maps_split : ∀ (entries : List (Nat × List Nat))
    (a b : List (Nat × List Nat)),
    entries.foldl (fun acc p => p.2.foldl (fun acc2 idv =>
        (alistInsert (p.1 % 2 ^ 32)
           (sinsert (idv % 2 ^ 16) (alistGetD (p.1 % 2 ^ 32) acc2.1 [])) acc2.1,
         alistInsert (idv % 2 ^ 16)
           (sinsert (p.1 % 2 ^ 32) (alistGetD (idv % 2 ^ 16) acc2.2 [])) acc2.2)) acc)
      (a, b) =
      (entries.foldl (fun m p => p.2.foldl (fun m idv =>
          alistInsert (p.1 % 2 ^ 32)
            (sinsert (idv % 2 ^ 16) (alistGetD (p.1 % 2 ^ 32) m [])) m) m) a,
       entries.foldl (fun m p => p.2.foldl (fun m idv =>
          alistInsert (idv % 2 ^ 16)
            (sinsert (p.1 % 2 ^ 32) (alistGetD (idv % 2 ^ 16) m [])) m) m) b) := by
  intro entries
  induction entries with
  | nil => intro a b; rfl
  | cons p entries ih =>
    intro a b
    rw [List.foldl_cons, List.foldl_cons, List.foldl_cons,
      deser_inner_split (p.1 % 2 ^ 32) p.2 a b, ih]

theorem rebuild_idents : ∀ (l : List (String × Nat)) (acc : List (String × Nat)),
    (∀ p ∈ l, alistFind p.1 acc = none) → (l.map Prod.fst).Nodup →
    (∀ p ∈ l, p.2 < 2 ^ 16) →
    l.foldl (fun m p => alistInsert p.1 (p.2 % 2 ^ 16) m) acc = acc ++ l := by
  intro l
  induction l with
  | nil => intro acc _ _ _; simp
  | cons p l ih =>
    intro acc hfresh hnd hbound
    rw [List.map_cons, List.nodup_cons] at hnd
    rw [List.foldl_cons, Nat.mod_eq_of_lt (hbound p (List.mem_cons_self _ _)),
      alistInsert_of_none _ _ _ (hfresh p (List.mem_cons_self _ _))]
    rw [ih (acc ++ [(p.1, p.2)]) ?_ hnd.2
      (fun q hq => hbound q (List.mem_cons_of_mem _ hq))]
    · simp
    · intro q hq
      rw [alistFind_append, hfresh q (List.mem_cons_of_mem _ hq), alistFind]
      have hne : q.1 ≠ p.1 := by
        intro hc
        exact hnd.1 (hc ▸ List.mem_map.mpr ⟨q, hq, rfl⟩)
      rw [if_neg (fun hc : p.1 = q.1 => hne hc.symm), alistFind]

theorem rebuild_names : ∀ (l : List (String × Nat)) (acc : List (Nat × String)),
    (∀ p ∈ l, p.2 < 2 ^ 16) →
    l.foldl (fun m p => alistInsert (p.2 % 2 ^ 16) p.1 m) acc =
      l.foldl (fun m p => alistInsert p.2 p.1 m) acc := by
  intro l
  induction l with
  | nil => intro acc _; rfl
  | cons p l ih =>
    intro acc hbound
    rw [List.foldl_cons, List.foldl_cons,
      Nat.mod_eq_of_lt (hbound p (List.mem_cons_self _ _)),
      ih _ (fun q hq => hbound q (List.mem_cons_of_mem _ hq))]

theorem deser_index_id : ∀ (entries m : List (Nat × List Nat)),
    (∀ p ∈ entries, alistFind p.1 m = none) → (entries.map Prod.fst).Nodup →
    (∀ p ∈ entries, List.Sorted (· < ·) p.2 ∧ p.2 ≠ [] ∧ p.1 < 2 ^ 32 ∧
      ∀ v ∈ p.2, v < 2 ^ 16) →
    entries.foldl (fun m p => p.2.foldl (fun m idv =>
        alistInsert (p.1 % 2 ^ 32)
          (sinsert (idv % 2 ^ 16) (alistGetD (p.1 % 2 ^ 32) m [])) m) m) m =
      m ++ entries := by
  intro entries
  induction entries with
  | nil => intro m _ _ _; simp
  | cons p entries ih =>
    intro m hfresh hnd hent
    rw [List.map_cons, List.nodup_cons] at hnd
    obtain ⟨hsort, hne, hk32, hvb⟩ := hent p (List.mem_cons_self _ _)
    rw [List.foldl_cons]
    have hkid : p.1 % 2 ^ 32 = p.1 := Nat.mod_eq_of_lt hk32
    rw [hkid, deser_entry_clean p.1 p.2 m (hfresh p (List.mem_cons_self _ _))
      hsort hne hvb]
    rw [ih (m ++ [(p.1, p.2)]) ?_ hnd.2
      (fun q hq => hent q (List.mem_cons_of_mem _ hq))]
    · simp
    · intro q hq
      rw [alistFind_append, hfresh q (List.mem_cons_of_mem _ hq), alistFind]
      have hne' : q.1 ≠ p.1 := by
        intro hc
        exact hnd.1 (hc ▸ List.mem_map.mpr ⟨q, hq, rfl⟩)
      rw [if_neg (fun hc : p.1 = q.1 => hne' hc.symm), alistFind]

theorem deser_groups_inner_mem (hk : Nat) : ∀ (ids : List Nat)
    (m : List (Nat × List Nat)) (i F : Nat),
    F ∈ alistGetD i (ids.foldl (fun m idv =>
        alistInsert (idv % 2 ^ 16)
          (sinsert hk (alistGetD (idv % 2 ^ 16) m [])) m) m) [] ↔
      F ∈ alistGetD i m [] ∨ (F = hk ∧ ∃ v ∈ ids, i = v % 2 ^ 16) := by
  intro ids
  induction ids with
  | nil => simp
  | cons v ids ih =>
    intro m i F
    rw [List.foldl_cons, ih]
    by_cases hi : i = v % 2 ^ 16
    · subst hi
      rw [alistGetD_insert_self, mem_sinsert]
      simp only [List.mem_cons]
      constructor
      · rintro ((hF | hF) | ⟨hF, v', hv', hiv⟩)
        · exact Or.inr ⟨hF, v, Or.inl rfl, rfl⟩
        · exact Or.inl hF
        · exact Or.inr ⟨hF, v', Or.inr hv', hiv⟩
      · rintro (hF | ⟨hF, v', hv' | hv', hiv⟩)
        · exact Or.inl (Or.inr hF)
        · exact Or.inl (Or.inl hF)
        · exact Or.inr ⟨hF, v', hv', hiv⟩
    · rw [alistGetD_insert_ne _ _ _ _ _ hi]
      simp only [List.mem_cons]
      constructor
      · rintro (hF | ⟨hF, v', hv', hiv⟩)
        · exact Or.inl hF
        · exact Or.inr ⟨hF, v', Or.inr hv', hiv⟩
      · rintro (hF | ⟨hF, v', hv' | hv', hiv⟩)
        · exact Or.inl hF
        · exact absurd (hv' ▸ hiv) hi
        · exact Or.inr ⟨hF, v', hv', hiv⟩

theorem deser_groups_mem : ∀ (entries : List (Nat × List Nat))
    (m : List (Nat × List Nat)) (i F : Nat),
    F ∈ alistGetD i (entries.foldl (fun m p => p.2.foldl (fun m idv =>
        alistInsert (idv % 2 ^ 16)
          (sinsert (p.1 % 2 ^ 32) (alistGetD (idv % 2 ^ 16) m [])) m) m) m) [] ↔
      F ∈ alistGetD i m [] ∨
        ∃ p ∈ entries, F = p.1 % 2 ^ 32 ∧ ∃ v ∈ p.2, i = v % 2 ^ 16 := by
  intro entries
  induction entries with
  | nil => simp
  | cons p entries ih =>
    intro m i F
    rw [List.foldl_cons, ih, deser_groups_inner_mem]
    simp only [List.mem_cons]
    constructor
    · rintro ((hF | hF) | ⟨q, hq, hqF, hqv⟩)
      · exact Or.inl hF
      · exact Or.inr ⟨p, Or.inl rfl, hF.1, hF.2⟩
      · exact Or.inr ⟨q, Or.inr hq, hqF, hqv⟩
    · rintro (hF | ⟨q, hq | hq, hqF, hqv⟩)
      · exact Or.inl (Or.inl hF)
      · subst hq
        exact Or.inl (Or.inr ⟨hqF, hqv⟩)
      · exact Or.inr ⟨q, hq, hqF, hqv⟩

theorem deser_groups_sorted : ∀ (entries : List (Nat × List Nat))
    (m : List (Nat × List Nat)),
    (∀ i, List.Sorted (· < ·) (alistGetD i m [])) →
    ∀ i, List.Sorted (· < ·) (alistGetD i (entries.foldl
        (fun m p => p.2.foldl (fun m idv =>
          alistInsert (idv % 2 ^ 16)
            (sinsert (p.1 % 2 ^ 32) (alistGetD (idv % 2 ^ 16) m [])) m) m) m) []) := by
  have inner : ∀ (hk : Nat) (ids : List Nat) (m : List (Nat × List Nat)),
      (∀ i, List.Sorted (· < ·) (alistGetD i m [])) →
      ∀ i, List.Sorted (· < ·) (alistGetD i (ids.foldl (fun m idv =>
        alistInsert (idv % 2 ^ 16)
          (sinsert hk (alistGetD (idv % 2 ^ 16) m [])) m) m) []) := by
    intro hk ids
    induction ids with
    | nil => intro m hs i; exact hs i
    | cons v ids ih =>
      intro m hs i
      rw [List.foldl_cons]
      refine ih _ ?_ i
      intro j
      by_cases hj : j = v % 2 ^ 16
      · subst hj
        rw [alistGetD_insert_self]
        exact sorted_sinsert _ _ (hs _)
      · rw [alistGetD_insert_ne _ _ _ _ _ hj]
        exact hs j
  intro entries
  induction entries with
  | nil => intro m hs i; exact hs i
  | cons p entries ih =>
    intro m hs i
    rw [List.foldl_cons]
    exact ih _ (inner (p.1 % 2 ^ 32) p.2 m hs) i

theorem wf_ids_lt (k w : Nat) (idx : Index) (wf : IndexWF k w idx) :
    ∀ v ∈ idx.identifiers.map Prod.snd, v < 2 ^ 16 := by
  intro v hv
  rw [wf.ids_eq] at hv
  obtain ⟨x, _, hx⟩ := List.mem_map.mp hv
  rw [← hx]
  exact Nat.mod_lt _ (by decide)

theorem mapGetOrInsert_fst {α β : Type} [DecidableEq α] (kk : α) (d : β)
    (m : List (α × β)) : (mapGetOrInsert kk d m).1 = alistGetD kk m d := by
  rw [mapGetOrInsert, alistGetD]
  cases alistFind kk m <;> rfl

theorem alistGetD_after_insert_default {α β : Type} [DecidableEq α]
    (kk k' : α) (d : β) (m : List (α × β)) :
    alistGetD k' (mapGetOrInsert kk d m).2 d = alistGetD k' m d := by
  rw [mapGetOrInsert]
  cases hf : alistFind kk m with
  | some v => rfl
  | none =>
    rw [alistGetD, alistGetD, alistFind_append]
    cases hf' : alistFind k' m with
    | some v => rfl
    | none =>
      rw [alistFind]
      by_cases he : kk = k'
      · rw [if_pos he]
        rfl
      · rw [if_neg he, alistFind]

theorem getPair_fst (idx : Index) (a b : String) :
    (getPair idx a b).1 =
      ⟨a, b,
        (set_intersection (alistGetD (alistGetD a idx.identifiers 0) idx.groups [])
          (alistGetD (alistGetD b idx.identifiers 0) idx.groups [])).length % 2 ^ 32,
        (alistGetD (alistGetD a idx.identifiers 0) idx.groups []).length % 2 ^ 32,
        (alistGetD (alistGetD b idx.identifiers 0) idx.groups []).length % 2 ^ 32⟩ := by
  simp only [getPair, mapGetOrInsert_fst, alistGetD_after_insert_default]

theorem matchTokens_congr (idx1 idx2 : Index) (h1 : idx1.identifiers = idx2.identifiers)
    (h2 : idx1.index = idx2.index) (h3 : idx1.names = idx2.names)
    (h4 : idx1.k = idx2.k) (h5 : idx1.w = idx2.w)
    (h6 : ∀ i, alistGetD i idx1.groups [] = alistGetD i idx2.groups [])
    (ts : List Nat) : matchTokens idx1 ts = matchTokens idx2 ts := by
  simp only [matchTokens, h1, h2, h3, h4, h5]
  congr 1
  funext p
  rw [h6]

theorem deser_components (k w : Nat) (idx : Index) (hr : Reachable k w idx)
    (hk16 : k < 2 ^ 16) (hw16 : w < 2 ^ 16) :
    (deserialize (Index.serialize idx)).identifiers = idx.identifiers
    ∧ (deserialize (Index.serialize idx)).names = idx.names
    ∧ (deserialize (Index.serialize idx)).index = idx.index
    ∧ (deserialize (Index.serialize idx)).k = idx.k
    ∧ (deserialize (Index.serialize idx)).w = idx.w
    ∧ ∀ i, alistGetD i (deserialize (Index.serialize idx)).groups [] =
        alistGetD i idx.groups [] := by
  obtain wf := reachable_wf k w idx hr
  have hvlt := wf_ids_lt k w idx wf
  have hlt : ∀ p ∈ idx.identifiers, p.2 < 2 ^ 16 :=
    fun p hp => hvlt p.2 (List.mem_map.mpr ⟨p, hp, rfl⟩)
  have hent : ∀ p ∈ idx.index, List.Sorted (· < ·) p.2 ∧ p.2 ≠ [] ∧
      p.1 < 2 ^ 32 ∧ ∀ v ∈ p.2, v < 2 ^ 16 := by
    intro p hp
    refine ⟨wf.index_sorted p hp, wf.index_nonempty p hp, ?_, ?_⟩
    · have := wf.index_keys_lt p hp
      omega
    · intro v hv
      exact hvlt v (wf.index_ids p hp v hv)
  simp only [deserialize, Index.serialize, deser_ids_split, deser_maps_split]
  refine ⟨?_, ?_, ?_, ?_, ?_, ?_⟩
  · rw [rebuild_idents idx.identifiers [] (fun p _ => rfl) wf.names_nodup hlt]
    rfl
  · rw [rebuild_names idx.identifiers [] hlt]
    exact wf.names_eq.symm
  · rw [deser_index_id idx.index [] (fun p _ => rfl) wf.index_keys_nodup hent]
    rfl
  · have := wf.keq
    show idx.k % 2 ^ 16 = idx.k
    omega
  · have := wf.weq
    show idx.w % 2 ^ 16 = idx.w
    omega
  · intro i
    apply sorted_eq_of_mem_iff
    · exact deser_groups_sorted idx.index []
        (by intro j; rw [show alistGetD j ([] : List (Nat × List Nat)) [] = []
          from rfl]; exact List.sorted_nil) i
    · exact wf.groups_sorted i
    · intro F
      rw [deser_groups_mem]
      have hchar : (∃ p ∈ idx.index, F = p.1 % 2 ^ 32 ∧ ∃ v ∈ p.2, i = v % 2 ^ 16) ↔
          i ∈ alistGetD F idx.index [] := by
        rw [alistGetD_mem_iff idx.index wf.index_keys_nodup]
        constructor
        · rintro ⟨p, hp, hF, v, hv, hi⟩
          have hv16 : v < 2 ^ 16 := hvlt v (wf.index_ids p hp v hv)
          have hiv : i = v := by rw [hi, Nat.mod_eq_of_lt hv16]
          refine ⟨p, hp, ?_, ?_⟩
          · have hk32 : p.1 % 2 ^ 32 = p.1 := by
              have := wf.index_keys_lt p hp
              exact Nat.mod_eq_of_lt (by omega)
            rw [hF, hk32]
          · rw [hiv]
            exact hv
        · rintro ⟨p, hp, hpF, hpv⟩
          have hi16 : i < 2 ^ 16 := hvlt i (wf.index_ids p hp i hpv)
          refine ⟨p, hp, ?_, i, hpv, ?_⟩
          · have hk32 : p.1 % 2 ^ 32 = p.1 := by
              have := wf.index_keys_lt p hp
              exact Nat.mod_eq_of_lt (by omega)
            rw [hk32, hpF]
          · rw [Nat.mod_eq_of_lt hi16]
      rw [show alistGetD i ([] : List (Nat × List Nat)) [] = [] from rfl]
      simp only [List.not_mem_nil, false_or]
      rw [hchar, wf.mirror F i]

/-- C7: for every index built from a sequence of `addDocument` calls (window
parameters being genuine `uint16_t` values), deserializing the snapshot
produced by `serialize` yields an index that answers every `getPair` query
and every `matchTokens` query identically to the original. -/
theorem roundtrip_queries (k w : Nat) (idx : Index) (hr : Reachable k w idx)
    (hk16 : k < 2 ^ 16) (hw16 : w < 2 ^ 16) :
    (∀ a b, (getPair (deserialize (Index.serialize idx)) a b).1 =
      (getPair idx a b).1)
    ∧ ∀ ts, matchTokens (deserialize (Index.serialize idx)) ts =
        matchTokens idx ts := by
  obtain ⟨hids, hnames, hindex, hkk, hww, hgroups⟩ :=
    deser_components k w idx hr hk16 hw16
  constructor
  · intro a b
    rw [getPair_fst, getPair_fst, hids, hgroups, hgroups]
  · intro ts
    exact matchTokens_congr _ _ hids hindex hnames hkk hww hgroups ts

/-- Witness for C7 on the one-document index (`k = 1`, `w = 2`, tokens
`[1,2,3]`), queried with `getPair("a","b")` and `matchTokens([5])`. -/
theorem roundtrip_queries_witness :
    (getPair (deserialize (Index.serialize (addTokens (Index.mkEmpty 1 2) "a"
        [1, 2, 3]))) "a" "b").1 =
      (getPair (addTokens (Index.mkEmpty 1 2) "a" [1, 2, 3]) "a" "b").1
    ∧ matchTokens (deserialize (Index.serialize (addTokens (Index.mkEmpty 1 2) "a"
        [1, 2, 3]))) [5] =
      matchTokens (addTokens (Index.mkEmpty 1 2) "a" [1, 2, 3]) [5] :=
  ⟨(roundtrip_queries 1 2 _ (Reachable.add _ "a" [1, 2, 3] Reachable.empty)
      (by decide) (by decide)).1 "a" "b",
   (roundtrip_queries 1 2 _ (Reachable.add _ "a" [1, 2, 3] Reachable.empty)
      (by decide) (by decide)).2 [5]⟩

end Dolos
